import Mathlib

/-!
Shallow embedding of `src/version-manager.js` (multi-module-version-manager).

The JavaScript source is translated function by function:

* `determineChangeType`   -> `VMgr.determineChangeType`
* `incrementVersion`      -> `VMgr.incrementVersion` (core `VMgr.bumpCore`)
* `detectCyclicDependencies` -> `VMgr.detectCyclicDependencies`
* `topologicalSort`       -> `VMgr.topologicalSort`
* `calculateNewVersions` / `updateDependents` -> `VMgr.calculateNewVersions`
* `buildDependencyGraph`  -> `VMgr.buildDependencyGraph` (node objects made
  explicit through numeric ids, as the JS `Map` holds object references)
* `extractVersion` / `extractDependencies` -> deterministic scanners,
  equivalent to the source's regular expressions on their match domain
* the apply-mode write loop of `updateVersions` -> `VMgr.persistTargets`

JavaScript numbers reached by `split('.').map(Number)` are modelled by
`VMgr.JSNum`: an integer or `NaN`.  `Number` is modelled on the forms a
version component can take (optional surrounding whitespace, optional
sign, decimal digit run, empty string = 0); exotic numeric notations
(hexadecimal, exponents) are outside the domain exercised here and map
to `NaN`.  The unbounded recursions of the source (depth-first walks,
regex global scan) terminate on the inputs the source meets; they are
made structurally recursive with a fuel argument that provably exceeds
the recursion depth, so no behaviour is lost.
-/

namespace VMgr

/-! ### Commit classifier (`determineChangeType`, lines 162-176) -/

inductive ChangeType where
  | none
  | patch
  | minor
  | major
deriving DecidableEq, BEq

/-- JS `String.prototype.startsWith`. -/
def strStarts (s p : String) : Bool := p.data.isPrefixOf s.data

/-- Occurrence of `sub` anywhere in `l` (JS `String.prototype.includes`). -/
def listContains (sub : List Char) : List Char → Bool
  | [] => sub.isPrefixOf []
  | c :: cs => sub.isPrefixOf (c :: cs) || listContains sub cs

/-- JS `commit.startsWith('feat!:') || commit.includes('BREAKING CHANGE')`. -/
def isBreaking (commit : String) : Bool :=
  strStarts commit "feat!:" || listContains "BREAKING CHANGE".data commit.data

/-- The loop body of `determineChangeType`, with the running severity made
an explicit accumulator. -/
def determineChangeTypeGo (changeType : ChangeType) : List String → ChangeType
  | [] => changeType
  | commit :: rest =>
    if isBreaking commit then ChangeType.major
    else if strStarts commit "feat:" && !(changeType == ChangeType.major) then
      determineChangeTypeGo ChangeType.minor rest
    else if strStarts commit "fix:" && changeType == ChangeType.none then
      determineChangeTypeGo ChangeType.patch rest
    else determineChangeTypeGo changeType rest

/-- `determineChangeType(commits)` of the source. -/
def determineChangeType (commits : List String) : ChangeType :=
  determineChangeTypeGo ChangeType.none commits

/-! ### JS numbers and `incrementVersion` (lines 229-241) -/

/-- A JavaScript number as produced by `Number(component)`: an integer
or `NaN`. -/
inductive JSNum where
  | int (n : Int)
  | nan
deriving DecidableEq, BEq

/-- Whitespace characters recognised by `Number` (the forms occurring in
version strings). -/
def isWsChar (c : Char) : Bool :=
  c = ' ' || c = '\t' || c = '\n' || c = '\r'

def charIsDigit (c : Char) : Bool := '0' ≤ c && c ≤ '9'

def charVal (c : Char) : Nat := c.toNat - 48

/-- Decimal digit of a value below ten. -/
def digitToChar (d : Nat) : Char :=
  match d with
  | 0 => '0' | 1 => '1' | 2 => '2' | 3 => '3' | 4 => '4'
  | 5 => '5' | 6 => '6' | 7 => '7' | 8 => '8' | 9 => '9'
  | _ => '*'

/-- Big-endian digits of `n`; the fuel strictly exceeds the digit count. -/
def natDigitsAux : Nat → Nat → List Char
  | 0, _ => []
  | _ + 1, 0 => []
  | fuel + 1, n => natDigitsAux fuel (n / 10) ++ [digitToChar (n % 10)]

/-- Decimal rendering of a natural number, as JS renders integers. -/
def natDigitChars (n : Nat) : List Char :=
  if n = 0 then ['0'] else natDigitsAux (n + 1) n

/-- Value of a big-endian digit run. -/
def digitsVal (cs : List Char) : Nat :=
  cs.foldl (fun a c => 10 * a + charVal c) 0

def trimWs (cs : List Char) : List Char :=
  ((cs.dropWhile isWsChar).reverse.dropWhile isWsChar).reverse

/-- `Number(s)` on a version component: trimmed empty string is `0`, an
optionally signed digit run is that integer, anything else is `NaN`. -/
def jsNumberChars (cs : List Char) : JSNum :=
  match trimWs cs with
  | [] => JSNum.int 0
  | '-' :: ds =>
    if !ds.isEmpty && ds.all charIsDigit then JSNum.int (-(digitsVal ds : Int))
    else JSNum.nan
  | '+' :: ds =>
    if !ds.isEmpty && ds.all charIsDigit then JSNum.int (digitsVal ds)
    else JSNum.nan
  | ds =>
    if ds.all charIsDigit then JSNum.int (digitsVal ds)
    else JSNum.nan

/-- JS `String.prototype.split` with a one-character separator. -/
def splitChar (sep : Char) : List Char → List (List Char)
  | [] => [[]]
  | c :: cs =>
    if c = sep then [] :: splitChar sep cs
    else
      match splitChar sep cs with
      | [] => [[c]]
      | p :: ps => (c :: p) :: ps

/-- `currentVersion.split('.').map(Number)` of the source. -/
def versionParts (v : String) : List JSNum :=
  (splitChar '.' v.data).map jsNumberChars

/-- Template-literal rendering of a JS number. -/
def renderJS : JSNum → List Char
  | JSNum.int n => if n < 0 then '-' :: natDigitChars n.natAbs else natDigitChars n.toNat
  | JSNum.nan => ['N', 'a', 'N']

/-- Rendering of a destructured component: a missing component is
`undefined`. -/
def renderOptJS : Option JSNum → List Char
  | some j => renderJS j
  | none => ['u', 'n', 'd', 'e', 'f', 'i', 'n', 'e', 'd']

/-- `x + 1` on a destructured component: `undefined + 1` and `NaN + 1`
are `NaN`. -/
def addOneJS : Option JSNum → JSNum
  | some (JSNum.int n) => JSNum.int (n + 1)
  | _ => JSNum.nan

inductive BumpType where
  | major
  | minor
  | patch
deriving DecidableEq, BEq

/-- The switch body of `incrementVersion`, producing the new version
string from the destructured components `[major, minor, patch]`. -/
def bumpCore (v : String) (t : BumpType) : String :=
  let parts := versionParts v
  match t with
  | BumpType.major =>
    String.mk (renderJS (addOneJS parts[0]?) ++ '.' :: '0' :: '.' :: '0' :: [])
  | BumpType.minor =>
    String.mk (renderOptJS parts[0]? ++ '.' :: renderJS (addOneJS parts[1]?) ++ '.' :: '0' :: [])
  | BumpType.patch =>
    String.mk (renderOptJS parts[0]? ++ '.' :: renderOptJS parts[1]? ++ '.' :: renderJS (addOneJS parts[2]?))

/-- `incrementVersion(currentVersion, type)`: the only failure is the
`default` branch of the switch, for an unknown bump type. -/
def incrementVersion (currentVersion : String) (type : String) : Except String String :=
  if type = "major" then Except.ok (bumpCore currentVersion BumpType.major)
  else if type = "minor" then Except.ok (bumpCore currentVersion BumpType.minor)
  else if type = "patch" then Except.ok (bumpCore currentVersion BumpType.patch)
  else Except.error ("Unknown version increment type: " ++ type)

/-- The well-formed version string `a.b.c`. -/
def mkVersion (a b c : Nat) : String :=
  String.mk (natDigitChars a ++ '.' :: natDigitChars b ++ '.' :: natDigitChars c)

/-! ### The module graph

After `buildDependencyGraph` runs on a settings listing with pairwise
distinct module names, the `ModuleNode` objects are in bijection with
their names, `dependencies` and `dependents` reference nodes of the
graph, and the walks of the source identify a node with its `name`
(`path.has(node.name)`, `visitedModules.has(node.name)`).  The graph is
therefore embedded keyed by name. -/

structure Graph where
  nodes : List String
  deps : String → List String
  rdeps : String → List String

/-- Every dependency edge stays inside the graph (holds for built
graphs: edges are only added between present modules). -/
@[reducible] def Closed (g : Graph) : Prop :=
  ∀ n ∈ g.nodes, ∀ d ∈ g.deps n, d ∈ g.nodes

/-- A nonempty directed dependency path. -/
inductive DepPath (g : Graph) : String → String → Prop where
  | single {a b : String} : b ∈ g.deps a → DepPath g a b
  | cons {a b c : String} : b ∈ g.deps a → DepPath g b c → DepPath g a c

/-- Consecutive elements are dependency edges. -/
def ChainList (g : Graph) : List String → Prop
  | a :: b :: rest => b ∈ g.deps a ∧ ChainList g (b :: rest)
  | _ => True

/-! ### Cycle detection (`detectCyclicDependencies`, lines 93-118) -/

/-- `cycle.slice(cycle.indexOf(node.name))` where
`cycle = Array.from(path).concat(node.name)`. -/
def cycleSlice (path : List String) (n : String) : List String :=
  (path ++ [n]).drop ((path ++ [n]).indexOf n)

/-- First hit of `f` over a list: the `for ... of` loop that returns on
the first thrown cycle. -/
def firstSome {α β : Type} (f : α → Option β) : List α → Option β
  | [] => none
  | a :: rest =>
    match f a with
    | some b => some b
    | none => firstSome f rest

/-- The inner recursive `detectCycle(node, path)`.  `some c` is the
thrown cycle path; `none` is normal return.  The fuel bounds the
recursion depth: the path grows by one fresh name per level and names
are drawn from the finite graph, so `g.nodes.length + 1` levels always
suffice (proved by `detect_complete` below). -/
def detectCycleAux (g : Graph) : Nat → String → List String → Option (List String)
  | 0, n, path =>
    if n ∈ path then some (cycleSlice path n) else none
  | fuel + 1, n, path =>
    if n ∈ path then some (cycleSlice path n)
    else firstSome (fun d => detectCycleAux g fuel d (path ++ [n])) (g.deps n)

/-- `detectCyclicDependencies()`: run `detectCycle` from every module;
the first thrown cycle aborts. -/
def detectCyclicDependencies (g : Graph) : Option (List String) :=
  firstSome (fun n => detectCycleAux g (g.nodes.length + 1) n []) g.nodes

/-! ### Topological sort (`topologicalSort`, lines 206-227) -/

structure TState where
  visited : List String
  order : List String

/-- The inner recursive `visit(node)`: mark visited, visit dependencies,
append the node after them (post-order).  Fuel as in `detectCycleAux`:
every nested call marks a fresh node, so `g.nodes.length + 1` levels
suffice on closed graphs. -/
def visitAux (g : Graph) : Nat → String → TState → TState
  | 0, _, s => s
  | fuel + 1, n, s =>
    if n ∈ s.visited then s
    else
      let s1 : TState := ⟨n :: s.visited, s.order⟩
      let s2 := (g.deps n).foldl (fun st d => visitAux g fuel d st) s1
      ⟨s2.visited, s2.order ++ [n]⟩

/-- `topologicalSort()`: visit every module of the map in turn. -/
def topologicalSort (g : Graph) : List String :=
  (g.nodes.foldl
    (fun st n => if n ∈ st.visited then st else visitAux g (g.nodes.length + 1) n st)
    ⟨[], []⟩).order

/-- A dependency-respecting order: built by appending a node only after
all of its dependencies are already present. -/
inductive DOrd (g : Graph) : List String → Prop where
  | nil : DOrd g []
  | snoc {l : List String} {x : String} : DOrd g l → (∀ d ∈ g.deps x, d ∈ l) →
      DOrd g (l ++ [x])

/-- Invariant of the depth-first walk relative to the stack `S` of
in-progress ancestors: visited names are distinct graph nodes, emitted
names are visited, every visited name is emitted or on the stack, and
the emitted order respects dependencies. -/
def TInv (g : Graph) (S : List String) (s : TState) : Prop :=
  s.visited.Nodup ∧ (∀ x ∈ s.visited, x ∈ g.nodes) ∧ s.order.Nodup ∧
  (∀ x ∈ s.order, x ∈ s.visited) ∧ (∀ x ∈ s.visited, x ∈ s.order ∨ x ∈ S) ∧
  DOrd g s.order

/-! ### Version calculation (`calculateNewVersions`, lines 178-204, and
`updateDependents`, lines 243-249) -/

/-- The mutable per-node fields `changeType` and `newVersion`. -/
structure VState where
  changeType : String → ChangeType
  newVersion : String → Option String

/-- Loop body of `updateDependents`: raise one dependent currently at
`none` or `patch` to `ct`. -/
def raiseDependent (ct : ChangeType) (st : VState) (m : String) : VState :=
  if st.changeType m = ChangeType.none ∨ st.changeType m = ChangeType.patch then
    { st with changeType := Function.update st.changeType m ct }
  else st

/-- `updateDependents(node, changeType)`: raise every direct dependent
currently at `none` or `patch` to `changeType`. -/
def updateDependents (g : Graph) (n : String) (ct : ChangeType) (s : VState) : VState :=
  (g.rdeps n).foldl (raiseDependent ct) s

/-- One iteration of the `for (const node of this.moduleOrder)` loop of
`calculateNewVersions`. -/
def calcStep (g : Graph) (cur : String → String) (s : VState) (n : String) : VState :=
  match s.changeType n with
  | ChangeType.major =>
    updateDependents g n ChangeType.minor
      { s with newVersion := Function.update s.newVersion n (some (bumpCore (cur n) BumpType.major)) }
  | ChangeType.minor =>
    { s with newVersion := Function.update s.newVersion n (some (bumpCore (cur n) BumpType.minor)) }
  | ChangeType.patch =>
    { s with newVersion := Function.update s.newVersion n (some (bumpCore (cur n) BumpType.patch)) }
  | ChangeType.none =>
    if (g.deps n).any (fun d => s.changeType d == ChangeType.major) then
      { s with newVersion := Function.update s.newVersion n (some (bumpCore (cur n) BumpType.minor)) }
    else
      { s with newVersion := Function.update s.newVersion n (some (cur n)) }

/-- `calculateNewVersions()`: process the topological order.  `cur` is
each node's `currentVersion`, `init` the severity from `analyzeChanges`;
`newVersion` starts `null`. -/
def calculateNewVersions (g : Graph) (cur : String → String) (init0 : String → ChangeType) : VState :=
  (topologicalSort g).foldl (calcStep g cur) ⟨init0, fun _ => none⟩

/-- Numeric rank of the severity order `none < patch < minor < major`. -/
def sevRank : ChangeType → Nat
  | ChangeType.none => 0
  | ChangeType.patch => 1
  | ChangeType.minor => 2
  | ChangeType.major => 3

/-! ### Apply mode (`updateVersions`, lines 251-276) -/

/-- JS truthiness of `node.newVersion` (`null` and `''` are falsy). -/
def isTruthyStr : Option String → Bool
  | some s => !(s == "")
  | none => false

/-- The modules for which the apply-mode loop calls
`updateGradleVersion` (persists the version): those with truthy
`newVersion`. -/
def persistTargets (order : List String) (newV : String → Option String) : List String :=
  order.filter (fun n => isTruthyStr (newV n))

/-! ### Graph construction (`buildDependencyGraph`, lines 49-77)

Each loop iteration creates a fresh `ModuleNode` object; the JS `Map`
maps a name to the most recently created node of that name.  Object
identity is embedded as a numeric id (creation index), so a duplicated
name observable through the map is the later node, exactly as in the
source. -/

/-- A `ModuleNode`: `dependencies` and `dependents` are sets of node
object references, kept as insertion-ordered id lists. -/
structure BNode where
  name : String
  currentVersion : String
  deps : List Nat
  rdeps : List Nat
deriving DecidableEq

/-- The builder state: `keys` is the `Map` key order, `mapVal` the
name-to-node binding, `tbl` the node objects by id. -/
structure BGraph where
  keys : List String
  mapVal : String → Option Nat
  tbl : Nat → BNode
  nextId : Nat

def emptyB : BGraph :=
  ⟨[], fun _ => none, fun _ => ⟨"", "", [], []⟩, 0⟩

/-- JS `Set.prototype.add`: append if absent. -/
def addU (l : List Nat) (a : Nat) : List Nat :=
  if a ∈ l then l else l ++ [a]

/-- `moduleNode.dependencies.add(target); target.dependents.add(moduleNode)`
(correct also when `fid = tid`, the two updates touching one object). -/
def addEdge (g : BGraph) (fid tid : Nat) : BGraph :=
  let n1 := g.tbl fid
  let tbl1 := Function.update g.tbl fid { n1 with deps := addU n1.deps tid }
  let n2 := tbl1 tid
  { g with tbl := Function.update tbl1 tid { n2 with rdeps := addU n2.rdeps fid } }

/-- One declared dependency of the node `fid`: resolved against the map
as it stands, silently dropped when the name is unknown. -/
def resolveDep (fid : Nat) (gg : BGraph) (dep : String) : BGraph :=
  match gg.mapVal dep with
  | some tid => addEdge gg fid tid
  | none => gg

/-- One iteration of the settings loop: create the node, bind the name
(JS `Map.set` keeps an existing key's position), then resolve each
declared dependency against the map as it stands now. -/
def addEntry (g : BGraph) (e : String × String × List String) : BGraph :=
  let id := g.nextId
  let g1 : BGraph :=
    { keys := if e.1 ∈ g.keys then g.keys else g.keys ++ [e.1],
      mapVal := Function.update g.mapVal e.1 (some id),
      tbl := Function.update g.tbl id ⟨e.1, e.2.1, [], []⟩,
      nextId := id + 1 }
  e.2.2.foldl (resolveDep id) g1

/-- `buildDependencyGraph()` on the settings listing: one entry per
included module with an existing build file, in listing order, carrying
the extracted version and declared dependency names (the file reads
themselves are I/O glue). -/
def buildDependencyGraph (es : List (String × String × List String)) : BGraph :=
  es.foldl addEntry emptyB

/-- The `currentVersion` reachable through the map for a name. -/
def lookupVer (g : BGraph) (n : String) : Option String :=
  (g.mapVal n).map (fun i => (g.tbl i).currentVersion)

/-- Version of the last settings entry carrying a name. -/
def lastVer (es : List (String × String × List String)) (n : String) : Option String :=
  ((es.filter (fun e => e.1 = n)).map (fun e => e.2.1)).getLast?

/-- A dependency edge between the nodes currently bound to two names. -/
def hasEdgeName (g : BGraph) (f t : String) : Bool :=
  match g.mapVal f, g.mapVal t with
  | some fid, some tid => decide (tid ∈ (g.tbl fid).deps)
  | _, _ => false

/-! ### `extractVersion` (lines 79-82) and `extractDependencies`
(lines 84-91)

The regular expressions `/version\s*=\s*['"]([^'"]+)['"]/` and
`/implementation\(\s*project\(['"]:([^'"]+)['"]\)\s*\)/g` are
deterministic on their structure (each starred class is disjoint from
the literal that follows it, and the quote class is disjoint from the
group class), so leftmost matching is an exact scan. -/

def isQuote (c : Char) : Bool := c = '\'' || c = '"'

/-- Consume a literal prefix. -/
def dropLit : List Char → List Char → Option (List Char)
  | [], cs => some cs
  | _ :: _, [] => none
  | l :: ls, c :: cs => if c = l then dropLit ls cs else none

/-- Match `version\s*=\s*['"]([^'"]+)['"]` anchored at the head,
returning the captured group. -/
def matchVersionAt (cs : List Char) : Option (List Char) :=
  match dropLit "version".data cs with
  | none => none
  | some r1 =>
    match r1.dropWhile isWsChar with
    | '=' :: r2 =>
      match r2.dropWhile isWsChar with
      | q :: r3 =>
        if isQuote q then
          let grp := r3.takeWhile (fun c => !(isQuote c))
          match r3.dropWhile (fun c => !(isQuote c)) with
          | q2 :: _ =>
            if !grp.isEmpty && isQuote q2 then some grp else none
          | [] => none
        else none
      | [] => none
    | _ => none

/-- Leftmost match of the version pattern (`String.prototype.match`). -/
def scanVersion : List Char → Option (List Char)
  | [] => none
  | c :: cs =>
    match matchVersionAt (c :: cs) with
    | some g => some g
    | none => scanVersion cs

/-- `extractVersion(buildContent)`: the captured group, or the default
`'0.1.0'` when nothing matches. -/
def extractVersion (content : String) : String :=
  match scanVersion content.data with
  | some g => String.mk g
  | none => "0.1.0"

/-- Match `implementation\(\s*project\(['"]:([^'"]+)['"]\)\s*\)`
anchored at the head, returning the group and the rest of the input
after the match. -/
def matchDepAt (cs : List Char) : Option (List Char × List Char) :=
  match dropLit "implementation(".data cs with
  | none => none
  | some r1 =>
    match dropLit "project(".data (r1.dropWhile isWsChar) with
    | none => none
    | some r2 =>
      match r2 with
      | q :: ':' :: r3 =>
        if isQuote q then
          let grp := r3.takeWhile (fun c => !(isQuote c))
          match r3.dropWhile (fun c => !(isQuote c)) with
          | q2 :: ')' :: r4 =>
            if !grp.isEmpty && isQuote q2 then
              match r4.dropWhile isWsChar with
              | ')' :: r5 => some (grp, r5)
              | _ => none
            else none
          | _ => none
        else none
      | _ => none

/-- The `matchAll` scan: after a match continue past it, otherwise
advance one position.  Every step consumes at least one character (a
match consumes its nonempty literal head), so fuel `length + 1`
reproduces the unbounded scan. -/
def scanDepsAux : Nat → List Char → List (List Char)
  | 0, _ => []
  | _ + 1, [] => []
  | fuel + 1, c :: cs =>
    match matchDepAt (c :: cs) with
    | some (g, rest) => g :: scanDepsAux fuel rest
    | none => scanDepsAux fuel cs

/-- JS `Set` accumulation: first occurrence kept, order preserved. -/
def addUnique (l : List String) (a : String) : List String :=
  if a ∈ l then l else l ++ [a]

/-- `extractDependencies(buildContent)`. -/
def extractDependencies (content : String) : List String :=
  (((scanDepsAux (content.data.length + 1) content.data).map String.mk).foldl addUnique [])

/-- `buildDependencyGraph` from raw build-file contents: per module the
version and dependencies are extracted from its own content, exactly as
the interleaved loop of the source does (extraction is pure). -/
def buildFromContents (items : List (String × String)) : BGraph :=
  buildDependencyGraph
    (items.map (fun p => (p.1, extractVersion p.2, extractDependencies p.2)))

/-! ### Concrete instances the claims are evaluated at -/

/-- The three-module chain of the propagation property: `c` depends on
`b`, `b` depends on `a`. -/
def gChain : Graph :=
  ⟨["a", "b", "c"],
   fun n => if n = "b" then ["a"] else if n = "c" then ["b"] else [],
   fun n => if n = "a" then ["b"] else if n = "b" then ["c"] else []⟩

def curChain : String → String := fun _ => "1.0.0"

/-- `a` classified `major`, `b` and `c` classified `none`. -/
def initChain : String → ChangeType :=
  fun n => if n = "a" then ChangeType.major else ChangeType.none

/-- A single unchanged module. -/
def gSingle : Graph := ⟨["a"], fun _ => [], fun _ => []⟩

def curSingle : String → String := fun _ => "1.0.0"

def initSingle : String → ChangeType := fun _ => ChangeType.none

/-- The same module name included twice with different versions. -/
def dupEntries : List (String × String × List String) :=
  [("a", "1.0.0", []), ("a", "2.0.0", [])]

/-- `entB` declares a dependency on `entA`'s module. -/
def entA : String × String × List String := ("a", "1.0.0", [])

def entB : String × String × List String := ("b", "1.0.0", ["a"])

/-- A two-node cyclic graph (`x` and `y` depend on each other). -/
def gCyc : Graph :=
  ⟨["x", "y"],
   fun n => if n = "x" then ["y"] else if n = "y" then ["x"] else [],
   fun n => if n = "x" then ["y"] else if n = "y" then ["x"] else []⟩

/-! ## Theorems -/

/-! ### Commit classifier -/

theorem strStarts_fix_not_feat {c : String} (h : strStarts c "fix:" = true) :
    strStarts c "feat:" = false := by
  unfold strStarts at h ⊢
  rw [List.isPrefixOf_iff_prefix] at h
  obtain ⟨t, ht⟩ := h
  have hd : c.data = 'f' :: 'i' :: 'x' :: ':' :: t := ht.symm
  rw [hd]
  simp [List.isPrefixOf]

theorem go_breaking (pre : List String) :
    ∀ (ct : ChangeType) (c : String) (post : List String), isBreaking c = true →
      determineChangeTypeGo ct (pre ++ c :: post) = ChangeType.major := by
  induction pre with
  | nil =>
    intro ct c post h
    simp [determineChangeTypeGo, h]
  | cons p pre ih =>
    intro ct c post h
    cases hb : isBreaking p with
    | true => simp [determineChangeTypeGo, hb]
    | false =>
      cases hf : (strStarts p "feat:" && !(ct == ChangeType.major)) with
      | true =>
        simp only [List.cons_append, determineChangeTypeGo, hb, hf]
        simpa using ih ChangeType.minor c post h
      | false =>
        cases hx : (strStarts p "fix:" && ct == ChangeType.none) with
        | true =>
          simp only [List.cons_append, determineChangeTypeGo, hb, hf, hx]
          simpa using ih ChangeType.patch c post h
        | false =>
          simp only [List.cons_append, determineChangeTypeGo, hb, hf, hx]
          simpa using ih ct c post h

/-- Claim C5: the commit classifier: empty input is `none`; a breaking
commit (breaking prefix or marker) yields `major` regardless of what
follows; `["fix: a", "feat: b"]` is `minor`; `["fix: a"]` and
`["fix: a", "fix: b"]` are `patch`; a fix-prefixed (non-breaking) commit
raises the running severity to `patch` exactly when it is `none` and
leaves it unchanged otherwise; commits matching no pattern leave the
running severity unchanged. -/
theorem claim5_classifier :
    determineChangeType [] = ChangeType.none ∧
    (∀ (pre : List String) (c : String) (post : List String), isBreaking c = true →
      determineChangeType (pre ++ c :: post) = ChangeType.major) ∧
    determineChangeType ["fix: a", "feat: b"] = ChangeType.minor ∧
    determineChangeType ["fix: a"] = ChangeType.patch ∧
    determineChangeType ["fix: a", "fix: b"] = ChangeType.patch ∧
    (∀ (c : String) (rest : List String),
      strStarts c "fix:" = true → isBreaking c = false →
      determineChangeTypeGo ChangeType.none (c :: rest) =
        determineChangeTypeGo ChangeType.patch rest) ∧
    (∀ (ct : ChangeType) (c : String) (rest : List String),
      strStarts c "fix:" = true → isBreaking c = false → ct ≠ ChangeType.none →
      determineChangeTypeGo ct (c :: rest) = determineChangeTypeGo ct rest) ∧
    (∀ (ct : ChangeType) (c : String) (rest : List String),
      isBreaking c = false → strStarts c "feat:" = false → strStarts c "fix:" = false →
      determineChangeTypeGo ct (c :: rest) = determineChangeTypeGo ct rest) := by
  refine ⟨rfl, ?_, by decide, by decide, by decide, ?_, ?_, ?_⟩
  · intro pre c post h
    exact go_breaking pre ChangeType.none c post h
  · intro c rest hfix hb
    simp [determineChangeTypeGo, hb, strStarts_fix_not_feat hfix, hfix,
      show (ChangeType.none == ChangeType.none) = true from rfl]
  · intro ct c rest hfix hb hne
    have hfeat := strStarts_fix_not_feat hfix
    have hct : (ct == ChangeType.none) = false := by
      cases ct
      · exact absurd rfl hne
      · rfl
      · rfl
      · rfl
    simp [determineChangeTypeGo, hb, hfeat, hfix, hct]
  · intro ct c rest hb hfeat hfix
    simp [determineChangeTypeGo, hb, hfeat, hfix]

/-- Witness for C5: the general clauses applied at concrete commits. -/
theorem claim5_classifier_witness :
    determineChangeType ["docs: d", "feat!: x", "feat: y"] = ChangeType.major ∧
    determineChangeTypeGo ChangeType.none ["fix: a"] =
      determineChangeTypeGo ChangeType.patch [] ∧
    determineChangeTypeGo ChangeType.minor ["fix: a"] =
      determineChangeTypeGo ChangeType.minor [] ∧
    determineChangeTypeGo ChangeType.patch ["docs: d"] =
      determineChangeTypeGo ChangeType.patch [] := by
  refine ⟨?_, ?_, ?_, ?_⟩
  · exact claim5_classifier.2.1 ["docs: d"] "feat!: x" ["feat: y"] (by decide)
  · exact claim5_classifier.2.2.2.2.2.1 "fix: a" [] (by decide) (by decide)
  · exact claim5_classifier.2.2.2.2.2.2.1 ChangeType.minor "fix: a" [] (by decide) (by decide)
      (by decide)
  · exact claim5_classifier.2.2.2.2.2.2.2 ChangeType.patch "docs: d" [] (by decide) (by decide)
      (by decide)

/-! ### `incrementVersion` error behaviour -/

/-- Claim C3, counterexample: the malformed current version `"abc"` is
not rejected: `incrementVersion` coerces it and returns `"NaN.0.0"`;
no error is raised for it. -/
theorem claim3_counterexample :
    incrementVersion "abc" "major" = Except.ok "NaN.0.0" ∧
    ∀ msg : String, incrementVersion "abc" "major" ≠ Except.error msg := by
  refine ⟨rfl, ?_⟩
  intro msg h
  rw [show incrementVersion "abc" "major" = Except.ok "NaN.0.0" from rfl] at h
  exact Except.noConfusion h

/-- Claim C3, amended: `incrementVersion` raises an error only for an
unknown bump type; for the three known types every current version —
malformed or not — is silently coerced to a successful result. -/
theorem claim3_amended :
    (∀ (v t : String), t = "major" ∨ t = "minor" ∨ t = "patch" →
      ∃ s : String, incrementVersion v t = Except.ok s) ∧
    (∀ (v t msg : String), incrementVersion v t = Except.error msg →
      t ≠ "major" ∧ t ≠ "minor" ∧ t ≠ "patch" ∧
        msg = "Unknown version increment type: " ++ t) := by
  constructor
  · intro v t ht
    rcases ht with h | h | h <;> subst h <;> simp [incrementVersion]
  · intro v t msg h
    unfold incrementVersion at h
    split at h
    · exact Except.noConfusion h
    · split at h
      · exact Except.noConfusion h
      · split at h
        · exact Except.noConfusion h
        · rename_i h1 h2 h3
          exact ⟨h1, h2, h3, (Except.error.injEq _ _ ▸ h).symm⟩

/-- Witness for C3 amended: evaluated at `v = "abc"`, `t = "major"` and
at the unknown type `"bogus"`. -/
theorem claim3_amended_witness :
    (∃ s : String, incrementVersion "abc" "major" = Except.ok s) ∧
    ("bogus" ≠ "major" ∧ "bogus" ≠ "minor" ∧ "bogus" ≠ "patch" ∧
      "Unknown version increment type: bogus" = "Unknown version increment type: " ++ "bogus") :=
  ⟨claim3_amended.1 "abc" "major" (Or.inl rfl),
   claim3_amended.2 "abc" "bogus" "Unknown version increment type: bogus" rfl⟩

/-! ### Decimal rendering and reparsing of well-formed versions -/

theorem charVal_digitToChar {d : Nat} (h : d < 10) : charVal (digitToChar d) = d := by
  interval_cases d <;> decide

theorem charIsDigit_digitToChar {d : Nat} (h : d < 10) :
    charIsDigit (digitToChar d) = true := by
  interval_cases d <;> decide

theorem digitsVal_append_singleton (l : List Char) (c : Char) :
    digitsVal (l ++ [c]) = 10 * digitsVal l + charVal c := by
  unfold digitsVal
  rw [List.foldl_append]
  rfl

theorem natDigitsAux_spec :
    ∀ fuel n : Nat, n < fuel →
      (natDigitsAux fuel n).all charIsDigit = true ∧
      digitsVal (natDigitsAux fuel n) = n := by
  intro fuel
  induction fuel with
  | zero => intro n h; omega
  | succ f ih =>
    intro n h
    match n with
    | 0 => exact ⟨rfl, rfl⟩
    | m + 1 =>
      have hdiv : (m + 1) / 10 < m + 1 := Nat.div_lt_self (by omega) (by omega)
      have hrec := ih ((m + 1) / 10) (by omega)
      have hmod : (m + 1) % 10 < 10 := Nat.mod_lt _ (by omega)
      have heq : natDigitsAux (f + 1) (m + 1) =
          natDigitsAux f ((m + 1) / 10) ++ [digitToChar ((m + 1) % 10)] := rfl
      constructor
      · rw [heq, List.all_append, hrec.1]
        simp [charIsDigit_digitToChar hmod]
      · rw [heq, digitsVal_append_singleton, hrec.2, charVal_digitToChar hmod]
        have := Nat.div_add_mod (m + 1) 10
        omega

theorem natDigitChars_digits (n : Nat) : (natDigitChars n).all charIsDigit = true := by
  unfold natDigitChars
  split
  · decide
  · exact (natDigitsAux_spec (n + 1) n (by omega)).1

theorem digitsVal_natDigitChars (n : Nat) : digitsVal (natDigitChars n) = n := by
  unfold natDigitChars
  split
  · rename_i h; rw [h]; decide
  · exact (natDigitsAux_spec (n + 1) n (by omega)).2

theorem natDigitChars_ne_nil (n : Nat) : natDigitChars n ≠ [] := by
  intro h
  have := digitsVal_natDigitChars n
  rw [h] at this
  unfold natDigitChars at h
  split at h
  · exact List.noConfusion h
  · rename_i hn
    exact hn (by rw [← this]; rfl)

theorem ws_not_digit {c : Char} (h : isWsChar c = true) : charIsDigit c = false := by
  unfold isWsChar at h
  simp only [Bool.or_eq_true, decide_eq_true_eq] at h
  rcases h with ((h | h) | h) | h <;> subst h <;> decide

theorem digit_not_ws {c : Char} (h : charIsDigit c = true) : isWsChar c = false := by
  cases hw : isWsChar c with
  | false => rfl
  | true => rw [ws_not_digit hw] at h; exact Bool.noConfusion h

theorem dropWhile_ws_digits {l : List Char} (h : l.all charIsDigit = true) :
    l.dropWhile isWsChar = l := by
  cases l with
  | nil => rfl
  | cons c cs =>
    have hc : charIsDigit c = true := by
      rw [List.all_cons, Bool.and_eq_true] at h
      exact h.1
    simp [List.dropWhile, digit_not_ws hc]

theorem trimWs_digits {l : List Char} (h : l.all charIsDigit = true) : trimWs l = l := by
  have hrev : l.reverse.all charIsDigit = true := by
    rw [List.all_eq_true] at h ⊢
    intro x hx
    exact h x (List.mem_reverse.mp hx)
  unfold trimWs
  rw [dropWhile_ws_digits h, dropWhile_ws_digits hrev, List.reverse_reverse]

theorem jsNumberChars_digits {l : List Char} (hne : l ≠ [])
    (hall : l.all charIsDigit = true) :
    jsNumberChars l = JSNum.int (digitsVal l) := by
  unfold jsNumberChars
  rw [trimWs_digits hall]
  cases l with
  | nil => exact absurd rfl hne
  | cons c cs =>
    have hc : charIsDigit c = true := by
      rw [List.all_cons, Bool.and_eq_true] at hall
      exact hall.1
    have hdash : c ≠ '-' := by intro h; rw [h] at hc; exact Bool.noConfusion hc
    have hplus : c ≠ '+' := by intro h; rw [h] at hc; exact Bool.noConfusion hc
    split
    · rename_i heq; exact List.noConfusion heq
    · rename_i ds heq
      exact absurd (List.cons.injEq .. ▸ heq).1 hdash
    · rename_i ds heq
      exact absurd (List.cons.injEq .. ▸ heq).1 hplus
    · rename_i ds hne1 hne2 hne3
      rw [hall]
      rfl

theorem jsNumberChars_natDigitChars (n : Nat) :
    jsNumberChars (natDigitChars n) = JSNum.int n := by
  rw [jsNumberChars_digits (natDigitChars_ne_nil n) (natDigitChars_digits n),
    digitsVal_natDigitChars]

theorem splitChar_of_not_mem {sep : Char} {l : List Char} (h : sep ∉ l) :
    splitChar sep l = [l] := by
  induction l with
  | nil => rfl
  | cons c cs ih =>
    have hcs : sep ∉ cs := fun hx => h (List.mem_cons_of_mem _ hx)
    have hc : ¬c = sep := fun hx => h (hx ▸ List.mem_cons_self c cs)
    simp [splitChar, hc, ih hcs]

theorem splitChar_append {sep : Char} {a rest : List Char} (h : sep ∉ a) :
    splitChar sep (a ++ sep :: rest) = a :: splitChar sep rest := by
  induction a with
  | nil => simp [splitChar]
  | cons c cs ih =>
    have hcs : sep ∉ cs := fun hx => h (List.mem_cons_of_mem _ hx)
    have hc : ¬c = sep := fun hx => h (hx ▸ List.mem_cons_self c cs)
    simp [splitChar, hc, ih hcs]

theorem dot_not_mem_natDigitChars (n : Nat) : '.' ∉ natDigitChars n := by
  intro hmem
  have hall := natDigitChars_digits n
  rw [List.all_eq_true] at hall
  exact absurd (hall _ hmem) (by decide)

theorem versionParts_mkVersion (a b c : Nat) :
    versionParts (mkVersion a b c) = [JSNum.int a, JSNum.int b, JSNum.int c] := by
  unfold versionParts mkVersion
  rw [show (String.mk (natDigitChars a ++ '.' :: natDigitChars b ++ '.' :: natDigitChars c)).data
      = natDigitChars a ++ '.' :: natDigitChars b ++ '.' :: natDigitChars c from rfl]
  rw [List.append_assoc, List.cons_append]
  rw [splitChar_append (dot_not_mem_natDigitChars a),
    splitChar_append (dot_not_mem_natDigitChars b),
    splitChar_of_not_mem (dot_not_mem_natDigitChars c)]
  rw [List.map_cons, List.map_cons, List.map_cons, List.map_nil,
    jsNumberChars_natDigitChars, jsNumberChars_natDigitChars, jsNumberChars_natDigitChars]

theorem renderJS_int_nat (n : Nat) : renderJS (JSNum.int n) = natDigitChars n := by
  simp only [renderJS]
  rw [if_neg (by omega : ¬((n : Int) < 0))]
  norm_num

theorem renderJS_addOne_nat (n : Nat) :
    renderJS (addOneJS (some (JSNum.int n))) = natDigitChars (n + 1) := by
  have h1 : addOneJS (some (JSNum.int n)) = JSNum.int ((n : Int) + 1) := rfl
  have h2 : ((n : Int) + 1) = ((n + 1 : Nat) : Int) := by push_cast; ring
  rw [h1, h2, renderJS_int_nat]

theorem bumpCore_parts {v : String} {M N P : Nat}
    (h : versionParts v = [JSNum.int M, JSNum.int N, JSNum.int P]) :
    bumpCore v BumpType.major = mkVersion (M + 1) 0 0 ∧
    bumpCore v BumpType.minor = mkVersion M (N + 1) 0 ∧
    bumpCore v BumpType.patch = mkVersion M N (P + 1) := by
  refine ⟨?_, ?_, ?_⟩ <;>
    simp [bumpCore, h, renderOptJS, renderJS_addOne_nat, renderJS_int_nat, mkVersion,
      show natDigitChars 0 = ['0'] by decide, List.append_assoc]

/-- Claim C8: on a current version whose components parse as the triple
`(M, N, P)`, the major bump yields `(M+1).0.0`, the minor bump
`M.(N+1).0`, the patch bump `M.N.(P+1)`, and a second patch bump lands
on `M.N.(P+2)`, leaving major and minor untouched. -/
theorem claim8_bump_semantics (M N P : Nat) (v : String)
    (h : versionParts v = [JSNum.int M, JSNum.int N, JSNum.int P]) :
    incrementVersion v "major" = Except.ok (mkVersion (M + 1) 0 0) ∧
    incrementVersion v "minor" = Except.ok (mkVersion M (N + 1) 0) ∧
    incrementVersion v "patch" = Except.ok (mkVersion M N (P + 1)) ∧
    bumpCore (bumpCore v BumpType.patch) BumpType.patch = mkVersion M N (P + 2) ∧
    versionParts (bumpCore (bumpCore v BumpType.patch) BumpType.patch) =
      [JSNum.int M, JSNum.int N, JSNum.int (P + 2)] := by
  obtain ⟨h1, h2, h3⟩ := bumpCore_parts h
  have hp1 : versionParts (bumpCore v BumpType.patch) =
      [JSNum.int M, JSNum.int N, JSNum.int (P + 1)] := by
    rw [h3, versionParts_mkVersion]
    norm_cast
  have h3' := (bumpCore_parts hp1).2.2
  refine ⟨?_, ?_, ?_, ?_, ?_⟩
  · simpa [incrementVersion] using h1
  · simpa [incrementVersion] using h2
  · simpa [incrementVersion] using h3
  · exact h3'
  · rw [h3', versionParts_mkVersion]
    norm_cast

/-- Witness for C8 at the version string `"1.2.3"`. -/
theorem claim8_bump_semantics_witness :
    versionParts "1.2.3" = [JSNum.int 1, JSNum.int 2, JSNum.int 3] ∧
    incrementVersion "1.2.3" "major" = Except.ok (mkVersion 2 0 0) ∧
    incrementVersion "1.2.3" "patch" = Except.ok (mkVersion 1 2 4) ∧
    bumpCore (bumpCore "1.2.3" BumpType.patch) BumpType.patch = mkVersion 1 2 5 := by
  have h := claim8_bump_semantics 1 2 3 "1.2.3" (by decide)
  exact ⟨by decide, h.1, h.2.2.1, h.2.2.2.1⟩

/-! ### Version calculation and propagation -/

/-- Claim C1, counterexample: in the chain `a → b → c` with `a` at
severity `major` and `b`, `c` at `none`, the calculation leaves `c`'s
version unchanged at `1.0.0` instead of giving it the minor bump
`1.1.0` the claim asserts: `updateDependents` runs only for a `major`
module, and `b` ends at `minor`, so nothing reaches `c`. -/
theorem claim1_counterexample :
    (calculateNewVersions gChain curChain initChain).newVersion "c" = some "1.0.0" ∧
    curChain "c" = "1.0.0" ∧
    bumpCore (curChain "c") BumpType.minor = "1.1.0" ∧
    (calculateNewVersions gChain curChain initChain).newVersion "c" ≠
      some (bumpCore (curChain "c") BumpType.minor) := by
  refine ⟨by decide, rfl, by decide, ?_⟩
  intro h
  rw [show (calculateNewVersions gChain curChain initChain).newVersion "c"
      = some "1.0.0" by decide] at h
  rw [show bumpCore (curChain "c") BumpType.minor = "1.1.0" by decide] at h
  exact absurd ((Option.some.injEq _ _ ▸ h)) (by decide)

theorem raiseDependent_fold_rank (l : List String) :
    ∀ (s : VState) (m : String), m ∈ l ∨ 2 ≤ sevRank (s.changeType m) →
      2 ≤ sevRank ((l.foldl (raiseDependent ChangeType.minor) s).changeType m) := by
  induction l with
  | nil =>
    intro s m h
    rcases h with h | h
    · exact absurd h (List.not_mem_nil m)
    · exact h
  | cons x xs ih =>
    intro s m h
    rw [List.foldl_cons]
    apply ih
    rcases h with h | h
    · rcases List.mem_cons.mp h with rfl | hm
      · right
        unfold raiseDependent
        split
        · simp [Function.update_same, sevRank]
        · rename_i hcond
          push_neg at hcond
          cases hct : s.changeType m
          · exact absurd hct hcond.1
          · exact absurd hct hcond.2
          · simp [sevRank]
          · simp [sevRank]
      · left; exact hm
    · right
      unfold raiseDependent
      split
      · rename_i hcond
        by_cases hx : m = x
        · subst hx
          rcases hcond with h' | h' <;> rw [h'] at h <;> simp [sevRank] at h
        · simpa [Function.update_noteq hx] using h
      · exact h

/-- Claim C1, amended: in the chain `a → b → c` with `a` at `major` and
`b`, `c` at `none`: `a` gets the major bump, `b` the minor bump, and
`c`'s version is *unchanged*.  A major module raises every *direct*
dependent to at least `minor` severity when it is processed, but a
minor module does not propagate further, so the forced bump does not
reach transitive dependents. -/
theorem claim1_amended :
    (calculateNewVersions gChain curChain initChain).newVersion "a" =
      some (bumpCore (curChain "a") BumpType.major) ∧
    (calculateNewVersions gChain curChain initChain).newVersion "b" =
      some (bumpCore (curChain "b") BumpType.minor) ∧
    (calculateNewVersions gChain curChain initChain).newVersion "c" = some (curChain "c") ∧
    (∀ (g : Graph) (s : VState) (n m : String), m ∈ g.rdeps n →
      2 ≤ sevRank ((updateDependents g n ChangeType.minor s).changeType m)) := by
  refine ⟨by decide, by decide, by decide, ?_⟩
  intro g s n m hm
  exact raiseDependent_fold_rank (g.rdeps n) s m (Or.inl hm)

/-- Witness for C1 amended: the one-hop clause applied to the direct
dependent `b` of `a` in the chain. -/
theorem claim1_amended_witness :
    2 ≤ sevRank ((updateDependents gChain "a" ChangeType.minor
      ⟨initChain, fun _ => none⟩).changeType "b") :=
  claim1_amended.2.2.2 gChain ⟨initChain, fun _ => none⟩ "a" "b" (by decide)

/-! ### Apply-mode persistence -/

/-- Claim C4, counterexample: a single module with no changes: its
computed new version equals its current version `1.0.0`, yet the
apply-mode loop still selects it for persisting, because the `none`
branch assigns `newVersion = currentVersion` and the loop only tests
truthiness of `newVersion`. -/
theorem claim4_counterexample :
    (calculateNewVersions gSingle curSingle initSingle).newVersion "a" = some "1.0.0" ∧
    curSingle "a" = "1.0.0" ∧
    persistTargets (topologicalSort gSingle)
      ((calculateNewVersions gSingle curSingle initSingle).newVersion) = ["a"] := by
  refine ⟨by decide, rfl, by decide⟩

theorem bumpCore_ne_empty (v : String) (t : BumpType) : bumpCore v t ≠ "" := by
  cases t <;>
  · intro h
    have h2 := congrArg String.data h
    simp [bumpCore, List.append_eq_nil] at h2

theorem updateDependents_newVersion (g : Graph) (n : String) (ct : ChangeType) (s : VState) :
    (updateDependents g n ct s).newVersion = s.newVersion := by
  unfold updateDependents
  generalize g.rdeps n = l
  induction l generalizing s with
  | nil => rfl
  | cons x xs ih =>
    rw [List.foldl_cons, ih]
    unfold raiseDependent
    split <;> rfl

theorem calcStep_newVersion_self (g : Graph) (cur : String → String) (s : VState)
    (n : String) (hcur : cur n ≠ "") :
    isTruthyStr ((calcStep g cur s n).newVersion n) = true := by
  cases hct : s.changeType n
  · simp only [calcStep, hct]
    split
    · simp [isTruthyStr, Function.update_same, bumpCore_ne_empty (cur n) BumpType.minor]
    · simp [isTruthyStr, Function.update_same, hcur]
  · simp only [calcStep, hct]
    simp [isTruthyStr, Function.update_same, bumpCore_ne_empty (cur n) BumpType.patch]
  · simp only [calcStep, hct]
    simp [isTruthyStr, Function.update_same, bumpCore_ne_empty (cur n) BumpType.minor]
  · simp only [calcStep, hct]
    rw [updateDependents_newVersion]
    simp [isTruthyStr, Function.update_same, bumpCore_ne_empty (cur n) BumpType.major]

theorem calcStep_newVersion_other (g : Graph) (cur : String → String) (s : VState)
    (n m : String) (hx : m ≠ n) :
    (calcStep g cur s n).newVersion m = s.newVersion m := by
  cases hct : s.changeType n
  · simp only [calcStep, hct]
    split <;> simp [Function.update_noteq hx]
  · simp only [calcStep, hct]
    simp [Function.update_noteq hx]
  · simp only [calcStep, hct]
    simp [Function.update_noteq hx]
  · simp only [calcStep, hct]
    rw [updateDependents_newVersion]
    simp [Function.update_noteq hx]

theorem calcStep_truthy_preserved (g : Graph) (cur : String → String) (s : VState)
    (n m : String) (hcur : ∀ k, cur k ≠ "")
    (h : isTruthyStr (s.newVersion m) = true) :
    isTruthyStr ((calcStep g cur s n).newVersion m) = true := by
  by_cases hx : m = n
  · subst hx; exact calcStep_newVersion_self g cur s m (hcur m)
  · rw [calcStep_newVersion_other g cur s n m hx]; exact h

theorem calc_fold_truthy (g : Graph) (cur : String → String)
    (hcur : ∀ k, cur k ≠ "") (l : List String) :
    ∀ (s : VState) (m : String), m ∈ l ∨ isTruthyStr (s.newVersion m) = true →
      isTruthyStr ((l.foldl (calcStep g cur) s).newVersion m) = true := by
  induction l with
  | nil =>
    intro s m h
    rcases h with h | h
    · exact absurd h (List.not_mem_nil m)
    · exact h
  | cons x xs ih =>
    intro s m h
    rw [List.foldl_cons]
    rcases h with h | h
    · rcases List.mem_cons.mp h with rfl | hm
      · exact ih _ m (Or.inr (calcStep_newVersion_self g cur s m (hcur m)))
      · exact ih _ m (Or.inl hm)
    · exact ih _ m (Or.inr (calcStep_truthy_preserved g cur s x m hcur h))

/-- Claim C4, amended: in apply mode the external writer is asked to
persist *every* module of the processing order whose computed
`newVersion` is non-null and nonempty — and after calculation every
processed module carries such a `newVersion` (equal to the current
version when nothing changed), so modules whose new version equals the
current one are persisted too. -/
theorem claim4_amended (g : Graph) (cur : String → String) (init0 : String → ChangeType)
    (hcur : ∀ k, cur k ≠ "") :
    persistTargets (topologicalSort g) ((calculateNewVersions g cur init0).newVersion) =
      topologicalSort g := by
  unfold persistTargets calculateNewVersions
  apply List.filter_eq_self.mpr
  intro n hn
  exact calc_fold_truthy g cur hcur (topologicalSort g) ⟨init0, fun _ => none⟩ n (Or.inl hn)

/-- Witness for C4 amended: on the three-module chain every module is a
persist target. -/
theorem claim4_amended_witness :
    persistTargets (topologicalSort gChain)
      ((calculateNewVersions gChain curChain initChain).newVersion) =
      topologicalSort gChain :=
  claim4_amended gChain curChain initChain (fun k => by simp [curChain])

/-! ### Graph construction -/

theorem addU_mem (l : List Nat) (b a : Nat) : a ∈ addU l b ↔ a ∈ l ∨ a = b := by
  unfold addU
  split
  · rename_i h
    constructor
    · exact fun hx => Or.inl hx
    · rintro (hx | rfl)
      · exact hx
      · exact h
  · simp

theorem addEdge_mapVal (g : BGraph) (f t : Nat) : (addEdge g f t).mapVal = g.mapVal := rfl

theorem addEdge_keys (g : BGraph) (f t : Nat) : (addEdge g f t).keys = g.keys := rfl

theorem addEdge_nextId (g : BGraph) (f t : Nat) : (addEdge g f t).nextId = g.nextId := rfl

theorem addEdge_tbl_name (g : BGraph) (f t i : Nat) :
    ((addEdge g f t).tbl i).name = (g.tbl i).name := by
  unfold addEdge
  simp only [Function.update_apply]
  by_cases h1 : i = t <;> by_cases h2 : i = f <;> simp_all

theorem addEdge_tbl_version (g : BGraph) (f t i : Nat) :
    ((addEdge g f t).tbl i).currentVersion = (g.tbl i).currentVersion := by
  unfold addEdge
  simp only [Function.update_apply]
  by_cases h1 : i = t <;> by_cases h2 : i = f <;> simp_all

theorem addEdge_tbl_deps (g : BGraph) (f t i : Nat) :
    ((addEdge g f t).tbl i).deps =
      if i = f then addU (g.tbl f).deps t else (g.tbl i).deps := by
  unfold addEdge
  simp only [Function.update_apply]
  by_cases h1 : i = t <;> by_cases h2 : i = f <;> simp_all

theorem resolveDep_scalars (f : Nat) (g : BGraph) (d : String) :
    (resolveDep f g d).mapVal = g.mapVal ∧ (resolveDep f g d).keys = g.keys ∧
      (resolveDep f g d).nextId = g.nextId := by
  unfold resolveDep
  split <;> exact ⟨rfl, rfl, rfl⟩

theorem foldResolve_scalars (f : Nat) (ds : List String) :
    ∀ g0 : BGraph, (ds.foldl (resolveDep f) g0).mapVal = g0.mapVal ∧
      (ds.foldl (resolveDep f) g0).keys = g0.keys ∧
      (ds.foldl (resolveDep f) g0).nextId = g0.nextId := by
  induction ds with
  | nil => exact fun g0 => ⟨rfl, rfl, rfl⟩
  | cons d ds ih =>
    intro g0
    rw [List.foldl_cons]
    obtain ⟨h1, h2, h3⟩ := ih (resolveDep f g0 d)
    obtain ⟨r1, r2, r3⟩ := resolveDep_scalars f g0 d
    exact ⟨h1.trans r1, h2.trans r2, h3.trans r3⟩

theorem resolveDep_tbl_fields (f : Nat) (g : BGraph) (d : String) (i : Nat) :
    ((resolveDep f g d).tbl i).name = (g.tbl i).name ∧
      ((resolveDep f g d).tbl i).currentVersion = (g.tbl i).currentVersion := by
  unfold resolveDep
  split
  · exact ⟨addEdge_tbl_name _ _ _ _, addEdge_tbl_version _ _ _ _⟩
  · exact ⟨rfl, rfl⟩

theorem foldResolve_tbl_fields (f : Nat) (ds : List String) :
    ∀ (g0 : BGraph) (i : Nat),
      ((ds.foldl (resolveDep f) g0).tbl i).name = (g0.tbl i).name ∧
      ((ds.foldl (resolveDep f) g0).tbl i).currentVersion = (g0.tbl i).currentVersion := by
  induction ds with
  | nil => exact fun g0 i => ⟨rfl, rfl⟩
  | cons d ds ih =>
    intro g0 i
    rw [List.foldl_cons]
    obtain ⟨h1, h2⟩ := ih (resolveDep f g0 d) i
    obtain ⟨r1, r2⟩ := resolveDep_tbl_fields f g0 d i
    exact ⟨h1.trans r1, h2.trans r2⟩

theorem foldResolve_deps_sub (f : Nat) (ds : List String) :
    ∀ (g0 : BGraph) (i tid : Nat), tid ∈ ((ds.foldl (resolveDep f) g0).tbl i).deps →
      tid ∈ (g0.tbl i).deps ∨ (i = f ∧ ∃ d ∈ ds, g0.mapVal d = some tid) := by
  induction ds with
  | nil => exact fun g0 i tid h => Or.inl h
  | cons d ds ih =>
    intro g0 i tid h
    rw [List.foldl_cons] at h
    rcases ih (resolveDep f g0 d) i tid h with h1 | ⟨hif2, d', hd', hv⟩
    · unfold resolveDep at h1
      split at h1
      · rename_i tid0 hm
        rw [addEdge_tbl_deps] at h1
        split at h1
        · rename_i hif
          rcases (addU_mem _ _ _).mp h1 with h2 | rfl
          · exact Or.inl (hif ▸ h2)
          · exact Or.inr ⟨hif, d, List.mem_cons_self d ds, hm⟩
        · exact Or.inl h1
      · exact Or.inl h1
    · rw [(resolveDep_scalars f g0 d).1] at hv
      exact Or.inr ⟨hif2, d', List.mem_cons_of_mem d hd', hv⟩

theorem addEntry_eq (g : BGraph) (e : String × String × List String) :
    addEntry g e = e.2.2.foldl (resolveDep g.nextId)
      { keys := if e.1 ∈ g.keys then g.keys else g.keys ++ [e.1],
        mapVal := Function.update g.mapVal e.1 (some g.nextId),
        tbl := Function.update g.tbl g.nextId ⟨e.1, e.2.1, [], []⟩,
        nextId := g.nextId + 1 } := rfl

theorem addEntry_mapVal (g : BGraph) (e : String × String × List String) :
    (addEntry g e).mapVal = Function.update g.mapVal e.1 (some g.nextId) := by
  rw [addEntry_eq]
  exact (foldResolve_scalars _ _ _).1

theorem addEntry_keys (g : BGraph) (e : String × String × List String) :
    (addEntry g e).keys = if e.1 ∈ g.keys then g.keys else g.keys ++ [e.1] := by
  rw [addEntry_eq]
  exact (foldResolve_scalars _ _ _).2.1

theorem addEntry_nextId (g : BGraph) (e : String × String × List String) :
    (addEntry g e).nextId = g.nextId + 1 := by
  rw [addEntry_eq]
  exact (foldResolve_scalars _ _ _).2.2

theorem addEntry_tbl_name (g : BGraph) (e : String × String × List String) (i : Nat) :
    ((addEntry g e).tbl i).name =
      ((Function.update g.tbl g.nextId ⟨e.1, e.2.1, [], []⟩) i).name := by
  rw [addEntry_eq]
  exact (foldResolve_tbl_fields _ _ _ _).1

theorem addEntry_tbl_version (g : BGraph) (e : String × String × List String) (i : Nat) :
    ((addEntry g e).tbl i).currentVersion =
      ((Function.update g.tbl g.nextId ⟨e.1, e.2.1, [], []⟩) i).currentVersion := by
  rw [addEntry_eq]
  exact (foldResolve_tbl_fields _ _ _ _).2

theorem addEntry_deps_sub (g : BGraph) (e : String × String × List String) (i tid : Nat)
    (h : tid ∈ ((addEntry g e).tbl i).deps) :
    tid ∈ ((Function.update g.tbl g.nextId ⟨e.1, e.2.1, [], []⟩) i).deps ∨
      (i = g.nextId ∧ ∃ d ∈ e.2.2, (Function.update g.mapVal e.1 (some g.nextId)) d = some tid) := by
  rw [addEntry_eq] at h
  exact foldResolve_deps_sub _ _ _ _ _ h

theorem build_append (es : List (String × String × List String))
    (e : String × String × List String) :
    buildDependencyGraph (es ++ [e]) = addEntry (buildDependencyGraph es) e := by
  unfold buildDependencyGraph
  rw [List.foldl_append]
  rfl

theorem build_inv (es : List (String × String × List String)) :
    (buildDependencyGraph es).nextId = es.length ∧
    (∀ n i, (buildDependencyGraph es).mapVal n = some i →
      i < es.length ∧ ((buildDependencyGraph es).tbl i).name = n) ∧
    (∀ n, ((buildDependencyGraph es).mapVal n).isSome = true ↔
      n ∈ es.map (fun x => x.1)) ∧
    (∀ n, lookupVer (buildDependencyGraph es) n = lastVer es n) ∧
    (∀ i tid, tid ∈ ((buildDependencyGraph es).tbl i).deps → tid < es.length) ∧
    (buildDependencyGraph es).keys.Nodup ∧
    (∀ x, x ∈ (buildDependencyGraph es).keys ↔ x ∈ es.map (fun x => x.1)) := by
  induction es using List.reverseRecOn with
  | nil =>
    refine ⟨rfl, ?_, ?_, ?_, ?_, List.nodup_nil, ?_⟩
    · intro n i h
      exact Option.noConfusion h
    · intro n
      simp [buildDependencyGraph, emptyB]
    · intro n
      rfl
    · intro i tid h
      exact absurd h (List.not_mem_nil tid)
    · intro x
      simp [buildDependencyGraph, emptyB]
  | append_singleton es e ih =>
    obtain ⟨ih1, ih2, ih3, ih4, ih5, ih6, ih7⟩ := ih
    rw [build_append]
    have hMap := addEntry_mapVal (buildDependencyGraph es) e
    have hKeys := addEntry_keys (buildDependencyGraph es) e
    have hNext := addEntry_nextId (buildDependencyGraph es) e
    have hNm := addEntry_tbl_name (buildDependencyGraph es) e
    have hVer := addEntry_tbl_version (buildDependencyGraph es) e
    rw [ih1] at hMap hNext hNm hVer
    have hLen : (es ++ [e]).length = es.length + 1 := by simp
    have hMapN : (es ++ [e]).map (fun x => x.1) = es.map (fun x => x.1) ++ [e.1] := by simp
    refine ⟨?_, ?_, ?_, ?_, ?_, ?_, ?_⟩
    · rw [hNext, hLen]
    · intro n i h
      rw [hMap] at h
      rw [hLen]
      by_cases hn : n = e.1
      · subst hn
        rw [Function.update_same] at h
        have hiL : i = es.length := (Option.some.injEq _ _ ▸ h).symm
        subst hiL
        refine ⟨by omega, ?_⟩
        rw [hNm, Function.update_same]
      · rw [Function.update_noteq hn] at h
        obtain ⟨hlt, hname⟩ := ih2 n i h
        refine ⟨by omega, ?_⟩
        rw [hNm, Function.update_noteq (by omega : i ≠ es.length)]
        exact hname
    · intro n
      rw [hMap, hMapN]
      by_cases hn : n = e.1
      · subst hn
        rw [Function.update_same]
        simp
      · rw [Function.update_noteq hn]
        rw [ih3]
        simp [List.mem_append, hn]
    · intro n
      unfold lookupVer
      rw [hMap]
      by_cases hn : n = e.1
      · subst hn
        have hlast : lastVer (es ++ [e]) e.1 = some e.2.1 := by
          unfold lastVer
          rw [List.filter_append]
          rw [show List.filter (fun x => decide (x.1 = e.1)) [e] = [e] by simp]
          rw [List.map_append]
          rw [show List.map (fun x => x.2.1) [e] = [e.2.1] from rfl]
          exact List.getLast?_concat _
        rw [Function.update_same, hlast]
        simp only [Option.map_some']
        rw [hVer es.length, Function.update_same]
      · have hne : e.1 ≠ n := fun h => hn h.symm
        have hlast2 : lastVer (es ++ [e]) n = lastVer es n := by
          unfold lastVer
          rw [List.filter_append]
          rw [show List.filter (fun x => decide (x.1 = n)) [e] = [] by simp [hne]]
          rw [List.append_nil]
        rw [Function.update_noteq hn, hlast2]
        cases hm : (buildDependencyGraph es).mapVal n with
        | none =>
          have h4 := ih4 n
          unfold lookupVer at h4
          rw [hm] at h4
          simp only [Option.map_none'] at h4
          simp only [Option.map_none']
          exact h4
        | some i =>
          have hvi : ((addEntry (buildDependencyGraph es) e).tbl i).currentVersion =
              ((buildDependencyGraph es).tbl i).currentVersion := by
            have hlt := (ih2 n i hm).1
            rw [hVer i, Function.update_noteq (by omega : i ≠ es.length)]
          have h4 := ih4 n
          unfold lookupVer at h4
          rw [hm] at h4
          simp only [Option.map_some'] at h4
          simp only [Option.map_some']
          rw [hvi]
          exact h4
    · intro i tid h
      rcases addEntry_deps_sub (buildDependencyGraph es) e i tid h with h1 | ⟨hiL, d, hd, hv⟩
      · rw [ih1] at h1
        rw [Function.update_apply] at h1
        rw [hLen]
        split at h1
        · exact absurd h1 (List.not_mem_nil tid)
        · have := ih5 i tid h1
          omega
      · rw [ih1] at hv
        rw [Function.update_apply] at hv
        rw [hLen]
        split at hv
        · have : tid = es.length := (Option.some.injEq _ _ ▸ hv).symm
          omega
        · have := (ih2 d tid hv).1
          omega
    · rw [hKeys]
      split
      · exact ih6
      · rename_i hnot
        rw [List.nodup_append]
        exact ⟨ih6, List.nodup_singleton e.1,
          fun a ha => by simp; intro hae; exact hnot (hae ▸ ha)⟩
    · intro x
      rw [hKeys, hMapN]
      split
      · rename_i hmem
        rw [ih7, List.mem_append]
        constructor
        · exact fun h => Or.inl h
        · rintro (h | h)
          · exact h
          · rw [List.mem_singleton] at h
            exact h ▸ (ih7 e.1).mp hmem
      · rw [List.mem_append, List.mem_append, ih7]

/-- Claim C2, counterexample: including the name `a` twice does not
fail: construction completes and the later entry has silently replaced
the earlier one — the map holds the single key `a`, bound to the second
node (id 1) carrying the later version `2.0.0`. -/
theorem claim2_counterexample :
    (buildDependencyGraph dupEntries).keys = ["a"] ∧
    (buildDependencyGraph dupEntries).mapVal "a" = some 1 ∧
    lookupVer (buildDependencyGraph dupEntries) "a" = some "2.0.0" :=
  ⟨by decide, by decide, by decide⟩

/-- Claim C2, amended: `buildDependencyGraph` never fails on a duplicate
name: the map keeps exactly one key per name, and the version observed
through the map for a name is that of the *last* settings entry
carrying it (the later module silently replaces the earlier one). -/
theorem claim2_amended (es : List (String × String × List String)) :
    (buildDependencyGraph es).keys.Nodup ∧
    (∀ n, n ∈ (buildDependencyGraph es).keys ↔ n ∈ es.map (fun x => x.1)) ∧
    (∀ n, lookupVer (buildDependencyGraph es) n = lastVer es n) := by
  obtain ⟨_, _, _, h4, _, h6, h7⟩ := build_inv es
  exact ⟨h6, h7, h4⟩

theorem hasEdgeName_true_elim {g : BGraph} {f t : String}
    (h : hasEdgeName g f t = true) :
    ∃ fid tid, g.mapVal f = some fid ∧ g.mapVal t = some tid ∧ tid ∈ (g.tbl fid).deps := by
  unfold hasEdgeName at h
  split at h
  · rename_i fid tid hf ht
    exact ⟨fid, tid, hf, ht, of_decide_eq_true h⟩
  · exact Bool.noConfusion h

theorem hasEdgeName_intro {g : BGraph} {f t : String} {fid tid : Nat}
    (hf : g.mapVal f = some fid) (ht : g.mapVal t = some tid)
    (hm : tid ∈ (g.tbl fid).deps) : hasEdgeName g f t = true := by
  unfold hasEdgeName
  rw [hf, ht]
  exact decide_eq_true hm

theorem build_edge_only_if (f t : String) :
    ∀ es : List (String × String × List String),
      (es.map (fun x => x.1)).Nodup →
      hasEdgeName (buildDependencyGraph es) f t = true →
      ∃ es1 e es2, es = es1 ++ e :: es2 ∧ e.1 = f ∧ t ∈ e.2.2 ∧
        (t = f ∨ t ∈ es1.map (fun x => x.1)) := by
  intro es
  induction es using List.reverseRecOn with
  | nil =>
    intro _ h
    simp [hasEdgeName, buildDependencyGraph, emptyB] at h
  | append_singleton es e ih =>
    intro hnd h
    obtain ⟨ih1, ih2, ih3, _, ih5, _, _⟩ := build_inv es
    rw [List.map_append] at hnd
    have hnd1 : (es.map (fun x => x.1)).Nodup := (List.nodup_append.mp hnd).1
    have hnotin : e.1 ∉ es.map (fun x => x.1) := by
      have hdisj := (List.nodup_append.mp hnd).2.2
      intro hmem
      exact hdisj hmem (List.mem_singleton_self _)
    rw [build_append] at h
    obtain ⟨fid, tid, hmf, hmt, hmem⟩ := hasEdgeName_true_elim h
    rw [addEntry_mapVal, ih1] at hmf hmt
    by_cases hf : f = e.1
    · subst hf
      rw [Function.update_same] at hmf
      have hfid : fid = es.length := (Option.some.injEq _ _ ▸ hmf).symm
      subst hfid
      rcases addEntry_deps_sub (buildDependencyGraph es) e es.length tid hmem
        with h1 | ⟨_, d, hd, hv⟩
      · rw [ih1, Function.update_same] at h1
        exact absurd h1 (List.not_mem_nil tid)
      · rw [ih1] at hv
        by_cases ht : t = e.1
        · subst ht
          by_cases hd1 : d = e.1
          · exact ⟨es, e, [], rfl, rfl, hd1 ▸ hd, Or.inl rfl⟩
          · rw [Function.update_noteq hd1] at hv
            rw [Function.update_same] at hmt
            have : tid = es.length := (Option.some.injEq _ _ ▸ hmt).symm
            subst this
            exact absurd (ih2 d es.length hv).1 (by omega)
        · rw [Function.update_noteq ht] at hmt
          obtain ⟨htlt, htname⟩ := ih2 t tid hmt
          by_cases hd1 : d = e.1
          · rw [hd1, Function.update_same] at hv
            have : es.length = tid := Option.some.injEq _ _ ▸ hv
            omega
          · rw [Function.update_noteq hd1] at hv
            obtain ⟨_, hdname⟩ := ih2 d tid hv
            have hdt : d = t := by rw [← hdname, htname]
            refine ⟨es, e, [], rfl, rfl, hdt ▸ hd, Or.inr ?_⟩
            exact (ih3 t).mp (by rw [hmt]; rfl)
    · rw [Function.update_noteq hf] at hmf
      obtain ⟨hflt, _⟩ := ih2 f fid hmf
      rcases addEntry_deps_sub (buildDependencyGraph es) e fid tid hmem
        with h1 | ⟨hfid, _⟩
      · rw [ih1, Function.update_noteq (by omega : fid ≠ es.length)] at h1
        have htlt := ih5 fid tid h1
        by_cases ht : t = e.1
        · rw [ht, Function.update_same] at hmt
          have : es.length = tid := Option.some.injEq _ _ ▸ hmt
          omega
        · rw [Function.update_noteq ht] at hmt
          obtain ⟨es1, e', es2, heq, h1', h2', h3'⟩ :=
            ih hnd1 (hasEdgeName_intro hmf hmt h1)
          exact ⟨es1, e', es2 ++ [e], by rw [heq]; simp, h1', h2', h3'⟩
      · rw [ih1] at hfid
        omega

/-- Claim C9: during graph construction an edge from `f` to `t` exists
in the final graph only when some settings entry names `f`, declares
`t`, and `t` was already inserted by then (`t` is `f` itself or appears
earlier in the listing); consequently a dependency on a module listed
later is silently dropped, and the edge set depends on the listing
order, as the two orderings of the same two entries show. -/
theorem claim9_build_order :
    (∀ (es : List (String × String × List String)) (f t : String),
      (es.map (fun x => x.1)).Nodup →
      hasEdgeName (buildDependencyGraph es) f t = true →
      ∃ es1 e es2, es = es1 ++ e :: es2 ∧ e.1 = f ∧ t ∈ e.2.2 ∧
        (t = f ∨ t ∈ es1.map (fun x => x.1))) ∧
    hasEdgeName (buildDependencyGraph [entA, entB]) "b" "a" = true ∧
    hasEdgeName (buildDependencyGraph [entB, entA]) "b" "a" = false :=
  ⟨fun es f t hnd h => build_edge_only_if f t es hnd h, by decide, by decide⟩

/-- Witness for C9: the general clause evaluated on the two-entry
listing where `b` declares a dependency on the earlier `a`. -/
theorem claim9_build_order_witness :
    ∃ es1 e es2, [entA, entB] = es1 ++ e :: es2 ∧ e.1 = "b" ∧ "a" ∈ e.2.2 ∧
      ("a" = "b" ∨ "a" ∈ es1.map (fun x => x.1)) :=
  claim9_build_order.1 [entA, entB] "b" "a" (by decide) (by decide)

theorem filter_map_entries (n : String) :
    ∀ (items : List (String × String)) (c : String),
      (items.map (fun p => p.1)).Nodup → (n, c) ∈ items →
      (items.map (fun p => (p.1, extractVersion p.2, extractDependencies p.2))).filter
          (fun x => decide (x.1 = n)) =
        [(n, extractVersion c, extractDependencies c)] := by
  intro items
  induction items with
  | nil =>
    intro c _ hmem
    exact absurd hmem (List.not_mem_nil _)
  | cons p ps ih =>
    intro c hnd hmem
    rw [List.map_cons] at hnd
    have hnd1 := (List.nodup_cons.mp hnd).2
    have hnotin := (List.nodup_cons.mp hnd).1
    rw [List.map_cons, List.filter_cons]
    rcases List.mem_cons.mp hmem with heq | hmem2
    · rw [← heq] at hnotin ⊢
      rw [if_pos (by simp)]
      rw [show (ps.map (fun p => (p.1, extractVersion p.2, extractDependencies p.2))).filter
          (fun x => decide (x.1 = n)) = [] by
        rw [List.filter_eq_nil_iff]
        intro x hx
        rw [List.mem_map] at hx
        obtain ⟨q, hq, rfl⟩ := hx
        simp only [decide_eq_true_eq]
        intro hqn
        have hq2 : q.1 ∈ ps.map (fun p => p.1) := List.mem_map_of_mem _ hq
        rw [hqn] at hq2
        exact hnotin hq2]
    · have hpn : ¬p.1 = n := by
        intro hp
        apply hnotin
        rw [hp]
        exact List.mem_map_of_mem _ hmem2
      rw [if_neg (by simp [hpn])]
      exact ih c hnd1 hmem2

/-- Claim C10: a build-file content with no match for the version
pattern yields the fixed default `'0.1.0'` from `extractVersion`, and
the module's node in the built graph carries exactly this default as
its current version. -/
theorem claim10_default_version (items : List (String × String)) (n c : String)
    (hnd : (items.map (fun p => p.1)).Nodup) (hmem : (n, c) ∈ items)
    (hnover : scanVersion c.data = none) :
    extractVersion c = "0.1.0" ∧
    lookupVer (buildFromContents items) n = some "0.1.0" := by
  have hev : extractVersion c = "0.1.0" := by
    unfold extractVersion
    rw [hnover]
  refine ⟨hev, ?_⟩
  unfold buildFromContents
  rw [(build_inv _).2.2.2.1 n]
  unfold lastVer
  rw [filter_map_entries n items c hnd hmem]
  rw [hev]
  rfl

/-- Witness for C10 at a content without a version declaration. -/
theorem claim10_default_version_witness :
    extractVersion "no version here" = "0.1.0" ∧
    lookupVer (buildFromContents [("m", "no version here")]) "m" = some "0.1.0" :=
  claim10_default_version [("m", "no version here")] "m" "no version here"
    (by decide) (by decide) (by decide)

/-! ### Cycle detection -/

theorem firstSome_eq_some {α β : Type} {f : α → Option β} {l : List α} {b : β}
    (h : firstSome f l = some b) : ∃ a ∈ l, f a = some b := by
  induction l with
  | nil => exact Option.noConfusion h
  | cons a rest ih =>
    unfold firstSome at h
    split at h
    · rename_i b' hb
      exact ⟨a, List.mem_cons_self a rest, hb.trans h⟩
    · obtain ⟨x, hx, hfx⟩ := ih h
      exact ⟨x, List.mem_cons_of_mem a hx, hfx⟩

theorem firstSome_eq_none {α β : Type} {f : α → Option β} {l : List α}
    (h : firstSome f l = none) : ∀ a ∈ l, f a = none := by
  induction l with
  | nil => exact fun a ha => absurd ha (List.not_mem_nil a)
  | cons a rest ih =>
    unfold firstSome at h
    split at h
    · exact Option.noConfusion h
    · rename_i hb
      intro x hx
      rcases List.mem_cons.mp hx with rfl | hx2
      · exact hb
      · exact ih h x hx2

theorem chain_tail {g : Graph} {a : String} {l : List String}
    (h : ChainList g (a :: l)) : ChainList g l := by
  cases l with
  | nil => trivial
  | cons b rest => exact h.2

theorem chain_drop {g : Graph} (i : Nat) :
    ∀ l : List String, ChainList g l → ChainList g (l.drop i) := by
  induction i with
  | zero => exact fun l h => h
  | succ i ih =>
    intro l h
    cases l with
    | nil => trivial
    | cons a l' => exact ih l' (chain_tail h)

theorem chain_extend {g : Graph} {y : String} :
    ∀ (l : List String) (x : String), ChainList g l → l.getLast? = some x →
      y ∈ g.deps x → ChainList g (l ++ [y]) := by
  intro l
  induction l with
  | nil => intro x _ hx; exact Option.noConfusion hx
  | cons a l' ih =>
    intro x hch hlast hy
    cases l' with
    | nil =>
      have hax : a = x := by
        rw [show ([a] : List String).getLast? = some a from rfl] at hlast
        exact Option.some.injEq _ _ ▸ hlast
      exact ⟨hax ▸ hy, trivial⟩
    | cons b l'' =>
      rw [List.getLast?_cons_cons] at hlast
      exact ⟨hch.1, ih x (chain_tail hch) hlast hy⟩

theorem chain_to_depPath {g : Graph} :
    ∀ (l : List String) (a b : String), ChainList g (a :: l) → l.getLast? = some b →
      DepPath g a b := by
  intro l
  induction l with
  | nil => intro a b _ hb; exact Option.noConfusion hb
  | cons c cs ih =>
    intro a b hch hlast
    cases cs with
    | nil =>
      have hcb : c = b := by
        rw [show ([c] : List String).getLast? = some c from rfl] at hlast
        exact Option.some.injEq _ _ ▸ hlast
      exact DepPath.single (hcb ▸ hch.1)
    | cons d ds =>
      rw [List.getLast?_cons_cons] at hlast
      exact DepPath.cons hch.1 (ih c b hch.2 hlast)

theorem nodup_subset_length {l L : List String} (hnd : l.Nodup)
    (hsub : ∀ x ∈ l, x ∈ L) : l.length ≤ L.length := by
  have h1 : l.toFinset.card = l.length := List.toFinset_card_of_nodup hnd
  have h2 : l.toFinset ⊆ L.toFinset := by
    intro x hx
    rw [List.mem_toFinset] at hx ⊢
    exact hsub x hx
  calc l.length = l.toFinset.card := h1.symm
    _ ≤ L.toFinset.card := Finset.card_le_card h2
    _ ≤ L.length := List.toFinset_card_le L

theorem getLast?_drop_of_lt {l : List String} {i : Nat} (h : i < l.length) :
    (l.drop i).getLast? = l.getLast? := by
  have hne : l.drop i ≠ [] := by
    intro hnil
    have h2 : (l.drop i).length = 0 := by rw [hnil]; rfl
    rw [List.length_drop] at h2
    omega
  conv_rhs => rw [← List.take_append_drop i l]
  rw [List.getLast?_append_of_ne_nil _ hne]

theorem cycleSlice_spec (g : Graph) (path : List String) (n : String)
    (hmem : n ∈ path) (hchain : ChainList g (path ++ [n]))
    (hsub : ∀ x ∈ path ++ [n], x ∈ g.nodes) :
    2 ≤ (cycleSlice path n).length ∧ (cycleSlice path n).head? = some n ∧
    (cycleSlice path n).getLast? = some n ∧ ChainList g (cycleSlice path n) ∧
    ∀ x ∈ cycleSlice path n, x ∈ g.nodes := by
  have hmemL : n ∈ path ++ [n] := List.mem_append_left _ hmem
  have hi : (path ++ [n]).indexOf n < (path ++ [n]).length :=
    List.indexOf_lt_length.mpr hmemL
  have hip : (path ++ [n]).indexOf n < path.length := by
    rw [List.indexOf_append_of_mem hmem]
    exact List.indexOf_lt_length.mpr hmem
  have hlen : (path ++ [n]).length = path.length + 1 := by simp
  refine ⟨?_, ?_, ?_, ?_, ?_⟩
  · unfold cycleSlice
    rw [List.length_drop]
    omega
  · unfold cycleSlice
    rw [List.drop_eq_getElem_cons hi]
    rw [show (path ++ [n])[(path ++ [n]).indexOf n] = n from List.getElem_indexOf hi]
    rfl
  · unfold cycleSlice
    rw [getLast?_drop_of_lt hi]
    exact List.getLast?_concat _
  · exact chain_drop _ _ hchain
  · intro x hx
    exact hsub x (List.drop_subset _ _ hx)

theorem detectAux_of_mem (g : Graph) (fuel : Nat) (n : String) (path : List String)
    (h : n ∈ path) : detectCycleAux g fuel n path = some (cycleSlice path n) := by
  cases fuel <;> simp [detectCycleAux, h]

theorem detectAux_sound (g : Graph) (hc : Closed g) :
    ∀ (fuel : Nat) (n : String) (path : List String) (c : List String),
      ChainList g (path ++ [n]) → (∀ x ∈ path, x ∈ g.nodes) → n ∈ g.nodes →
      detectCycleAux g fuel n path = some c →
      2 ≤ c.length ∧ c.head? = c.getLast? ∧ ChainList g c ∧
        ∀ x ∈ c, x ∈ g.nodes := by
  intro fuel
  induction fuel with
  | zero =>
    intro n path c hchain hsub hn h
    unfold detectCycleAux at h
    split at h
    · rename_i hmem
      have hsub2 : ∀ x ∈ path ++ [n], x ∈ g.nodes := by
        intro x hx
        rcases List.mem_append.mp hx with hx1 | hx1
        · exact hsub x hx1
        · rw [List.mem_singleton] at hx1
          exact hx1 ▸ hn
      obtain ⟨h1, h2, h3, h4, h5⟩ := cycleSlice_spec g path n hmem hchain hsub2
      have hce : c = cycleSlice path n := (Option.some.injEq _ _ ▸ h).symm
      subst hce
      exact ⟨h1, h2.trans h3.symm, h4, h5⟩
    · exact Option.noConfusion h
  | succ fuel ih =>
    intro n path c hchain hsub hn h
    unfold detectCycleAux at h
    split at h
    · rename_i hmem
      have hsub2 : ∀ x ∈ path ++ [n], x ∈ g.nodes := by
        intro x hx
        rcases List.mem_append.mp hx with hx1 | hx1
        · exact hsub x hx1
        · rw [List.mem_singleton] at hx1
          exact hx1 ▸ hn
      obtain ⟨h1, h2, h3, h4, h5⟩ := cycleSlice_spec g path n hmem hchain hsub2
      have hce : c = cycleSlice path n := (Option.some.injEq _ _ ▸ h).symm
      subst hce
      exact ⟨h1, h2.trans h3.symm, h4, h5⟩
    · rename_i hnot
      obtain ⟨d, hd, hrec⟩ := firstSome_eq_some h
      have hchain2 : ChainList g ((path ++ [n]) ++ [d]) :=
        chain_extend _ n hchain (List.getLast?_concat _) hd
      have hsub2 : ∀ x ∈ path ++ [n], x ∈ g.nodes := by
        intro x hx
        rcases List.mem_append.mp hx with hx1 | hx1
        · exact hsub x hx1
        · rw [List.mem_singleton] at hx1
          exact hx1 ▸ hn
      exact ih d (path ++ [n]) c hchain2 hsub2 (hc n hn d hd) hrec

theorem detect_sound (g : Graph) (hc : Closed g) (c : List String)
    (h : detectCyclicDependencies g = some c) :
    2 ≤ c.length ∧ c.head? = c.getLast? ∧ ChainList g c ∧ ∀ x ∈ c, x ∈ g.nodes := by
  obtain ⟨n, hn, hrec⟩ := firstSome_eq_some h
  exact detectAux_sound g hc (g.nodes.length + 1) n [] c trivial
    (fun x hx => absurd hx (List.not_mem_nil x)) hn hrec

theorem cycle_of_spec (g : Graph) (c : List String) (h2 : 2 ≤ c.length)
    (hhl : c.head? = c.getLast?) (hch : ChainList g c)
    (hsub : ∀ x ∈ c, x ∈ g.nodes) : ∃ a ∈ g.nodes, DepPath g a a := by
  match c, h2 with
  | a :: x :: l, _ =>
    have hlast : (x :: l).getLast? = some a := by
      have : (a :: x :: l).head? = some a := rfl
      rw [this, List.getLast?_cons_cons] at hhl
      exact hhl.symm
    exact ⟨a, hsub a (List.mem_cons_self _ _), chain_to_depPath (x :: l) a a hch hlast⟩

theorem detect_none_no_path (g : Graph) (hc : Closed g) {m n : String}
    (hpath : DepPath g n m) :
    ∀ (fuel : Nat) (path : List String), n ∈ g.nodes →
      (∀ x ∈ path, x ∈ g.nodes) → (path ++ [n]).Nodup →
      g.nodes.length + 1 ≤ fuel + (path ++ [n]).length →
      detectCycleAux g fuel n path = none → m ∉ path ++ [n] := by
  induction hpath with
  | single hedge =>
    rename_i a b
    intro fuel path ha hsub hnd hbound hdet hmem
    have hanot : a ∉ path := by
      intro hx
      rw [detectAux_of_mem g fuel a path hx] at hdet
      exact Option.noConfusion hdet
    match fuel with
    | 0 =>
      have hle : (path ++ [a]).length ≤ g.nodes.length := by
        apply nodup_subset_length hnd
        intro x hx
        rcases List.mem_append.mp hx with hx1 | hx1
        · exact hsub x hx1
        · rw [List.mem_singleton] at hx1
          exact hx1 ▸ ha
      omega
    | fuel + 1 =>
      unfold detectCycleAux at hdet
      rw [if_neg hanot] at hdet
      have hrec := firstSome_eq_none hdet b hedge
      rw [detectAux_of_mem g fuel b (path ++ [a]) hmem] at hrec
      exact Option.noConfusion hrec
  | cons hedge hbc ih =>
    rename_i a b c'
    intro fuel path ha hsub hnd hbound hdet hmem
    have hanot : a ∉ path := by
      intro hx
      rw [detectAux_of_mem g fuel a path hx] at hdet
      exact Option.noConfusion hdet
    match fuel with
    | 0 =>
      have hle : (path ++ [a]).length ≤ g.nodes.length := by
        apply nodup_subset_length hnd
        intro x hx
        rcases List.mem_append.mp hx with hx1 | hx1
        · exact hsub x hx1
        · rw [List.mem_singleton] at hx1
          exact hx1 ▸ ha
      omega
    | fuel + 1 =>
      unfold detectCycleAux at hdet
      rw [if_neg hanot] at hdet
      have hrec := firstSome_eq_none hdet b hedge
      have hbnot : b ∉ path ++ [a] := by
        intro hx
        rw [detectAux_of_mem g fuel b (path ++ [a]) hx] at hrec
        exact Option.noConfusion hrec
      have hsub2 : ∀ x ∈ path ++ [a], x ∈ g.nodes := by
        intro x hx
        rcases List.mem_append.mp hx with hx1 | hx1
        · exact hsub x hx1
        · rw [List.mem_singleton] at hx1
          exact hx1 ▸ ha
      have hnd2 : ((path ++ [a]) ++ [b]).Nodup := by
        rw [List.nodup_append]
        refine ⟨hnd, List.nodup_singleton b, ?_⟩
        intro x hx hxb
        rw [List.mem_singleton] at hxb
        exact hbnot (hxb ▸ hx)
      have hbound2 : g.nodes.length + 1 ≤ fuel + ((path ++ [a]) ++ [b]).length := by
        simp only [List.length_append, List.length_singleton] at hbound ⊢
        omega
      have := ih fuel (path ++ [a]) (hc a ha b hedge) hsub2 hnd2 hbound2 hrec
      exact this (List.mem_append_left _ hmem)

theorem detect_complete (g : Graph) (hc : Closed g) (a : String) (ha : a ∈ g.nodes)
    (hcyc : DepPath g a a) : detectCyclicDependencies g ≠ none := by
  intro h
  have hall := firstSome_eq_none h a ha
  have hnm := detect_none_no_path g hc hcyc (g.nodes.length + 1) [] ha
    (fun x hx => absurd hx (List.not_mem_nil x)) (List.nodup_singleton a)
    (by simp) hall
  exact hnm (List.mem_append_right _ (List.mem_singleton_self a))

/-- Also usable to discharge acyclicity hypotheses on concrete graphs:
a `none` run of the detector certifies the absence of cycles. -/
theorem noCycle_of_detect_none (g : Graph) (hc : Closed g)
    (h : detectCyclicDependencies g = none) :
    ∀ a ∈ g.nodes, ¬DepPath g a a := by
  intro a ha hcyc
  exact detect_complete g hc a ha hcyc h

/-- Claim C6: on a closed graph, cycle detection reports a cycle exactly
when the graph has a directed cycle through one of its modules, and any
reported path is itself a cycle: at least two entries, first and last
equal, and every consecutive pair joined by a dependency edge. -/
theorem claim6_cycle_detection (g : Graph) (hc : Closed g) :
    ((∃ c, detectCyclicDependencies g = some c) ↔ ∃ a ∈ g.nodes, DepPath g a a) ∧
    (∀ c, detectCyclicDependencies g = some c →
      2 ≤ c.length ∧ c.head? = c.getLast? ∧ ChainList g c) := by
  constructor
  · constructor
    · rintro ⟨c, hcC⟩
      obtain ⟨h2, hhl, hch, hsub⟩ := detect_sound g hc c hcC
      exact cycle_of_spec g c h2 hhl hch hsub
    · rintro ⟨a, ha, hcyc⟩
      cases hdet : detectCyclicDependencies g with
      | none => exact absurd hdet (detect_complete g hc a ha hcyc)
      | some c => exact ⟨c, rfl⟩
  · intro c hcC
    obtain ⟨h2, hhl, hch, _⟩ := detect_sound g hc c hcC
    exact ⟨h2, hhl, hch⟩

/-- Witness for C6 on the two-module cycle `x ↔ y`. -/
theorem claim6_cycle_detection_witness :
    Closed gCyc ∧
    ((∃ c, detectCyclicDependencies gCyc = some c) ↔ ∃ a ∈ gCyc.nodes, DepPath gCyc a a) :=
  ⟨by decide, (claim6_cycle_detection gCyc (by decide)).1⟩

/-! ### Topological sort -/

theorem visitAux_spec (g : Graph) (hc : Closed g)
    (hacyc : ∀ a ∈ g.nodes, ¬DepPath g a a) :
    ∀ (fuel : Nat) (n : String) (s : TState) (S : List String),
      n ∈ g.nodes →
      (∀ a ∈ S, ¬(a = n ∨ DepPath g n a)) →
      TInv g S s →
      g.nodes.length + 1 ≤ fuel + s.visited.length →
      TInv g S (visitAux g fuel n s) ∧
      (∃ vext, (visitAux g fuel n s).visited = vext ++ s.visited ∧
        ∀ x ∈ vext, x ∉ s.visited) ∧
      (∃ oext, (visitAux g fuel n s).order = s.order ++ oext ∧
        ∀ x ∈ oext, x ∉ s.visited) ∧
      n ∈ (visitAux g fuel n s).visited ∧ n ∈ (visitAux g fuel n s).order := by
  intro fuel
  induction fuel with
  | zero =>
    intro n s S hn hS hinv hbound
    obtain ⟨h1, h2, _, _, _, _⟩ := hinv
    have := nodup_subset_length h1 h2
    omega
  | succ fuel ih =>
    intro n s S hn hS hinv hbound
    obtain ⟨hvnd, hvsub, hond, hosub, hgap, hord⟩ := hinv
    have hnS : n ∉ S := fun hx => hS n hx (Or.inl rfl)
    by_cases hvis : n ∈ s.visited
    · have hva : visitAux g (fuel + 1) n s = s := by
        simp [visitAux, hvis]
      rw [hva]
      refine ⟨⟨hvnd, hvsub, hond, hosub, hgap, hord⟩, ⟨[], rfl, by simp⟩,
        ⟨[], by simp, by simp⟩, hvis, ?_⟩
      rcases hgap n hvis with h | h
      · exact h
      · exact absurd h hnS
    · have hva : visitAux g (fuel + 1) n s =
          ⟨((g.deps n).foldl (fun st d => visitAux g fuel d st) ⟨n :: s.visited, s.order⟩).visited,
           ((g.deps n).foldl (fun st d => visitAux g fuel d st)
             ⟨n :: s.visited, s.order⟩).order ++ [n]⟩ := by
        simp [visitAux, hvis]
      have hstack : ∀ d ∈ g.deps n, ∀ a ∈ n :: S, ¬(a = d ∨ DepPath g d a) := by
        intro d hd a ha hbad
        rcases List.mem_cons.mp ha with rfl | haS
        · rcases hbad with rfl | hp
          · exact hacyc a hn (DepPath.single hd)
          · exact hacyc a hn (DepPath.cons hd hp)
        · rcases hbad with rfl | hp
          · exact hS a haS (Or.inr (DepPath.single hd))
          · exact hS a haS (Or.inr (DepPath.cons hd hp))
      have hinv1 : TInv g (n :: S) ⟨n :: s.visited, s.order⟩ := by
        refine ⟨List.nodup_cons.mpr ⟨hvis, hvnd⟩, ?_, hond, ?_, ?_, hord⟩
        · intro x hx
          rcases List.mem_cons.mp hx with rfl | hx2
          · exact hn
          · exact hvsub x hx2
        · intro x hx
          exact List.mem_cons_of_mem n (hosub x hx)
        · intro x hx
          rcases List.mem_cons.mp hx with rfl | hx2
          · exact Or.inr (List.mem_cons_self _ _)
          · rcases hgap x hx2 with h | h
            · exact Or.inl h
            · exact Or.inr (List.mem_cons_of_mem n h)
      have fold_spec : ∀ ds : List String, (∀ d ∈ ds, d ∈ g.nodes) →
          (∀ d ∈ ds, ∀ a ∈ n :: S, ¬(a = d ∨ DepPath g d a)) →
          ∀ st : TState, TInv g (n :: S) st →
            g.nodes.length + 1 ≤ fuel + st.visited.length →
            TInv g (n :: S) (ds.foldl (fun st d => visitAux g fuel d st) st) ∧
            (∃ vext, (ds.foldl (fun st d => visitAux g fuel d st) st).visited =
              vext ++ st.visited ∧ ∀ x ∈ vext, x ∉ st.visited) ∧
            (∃ oext, (ds.foldl (fun st d => visitAux g fuel d st) st).order =
              st.order ++ oext ∧ ∀ x ∈ oext, x ∉ st.visited) ∧
            (∀ d ∈ ds, d ∈ (ds.foldl (fun st d => visitAux g fuel d st) st).visited) := by
        intro ds
        induction ds with
        | nil =>
          intro _ _ st hinvst _
          exact ⟨hinvst, ⟨[], rfl, by simp⟩, ⟨[], by simp, by simp⟩, by simp⟩
        | cons d ds ihds =>
          intro hdn hdstack st hinvst hb
          rw [List.foldl_cons]
          obtain ⟨hinv1', hvext1, hoext1, hdvis, _⟩ :=
            ih d st (n :: S) (hdn d (List.mem_cons_self _ _))
              (hdstack d (List.mem_cons_self _ _)) hinvst hb
          obtain ⟨vext1, hv1eq, hv1not⟩ := hvext1
          have hb1 : g.nodes.length + 1 ≤ fuel + (visitAux g fuel d st).visited.length := by
            rw [hv1eq, List.length_append]
            omega
          obtain ⟨hinv2, hvext2, hoext2, hmem2⟩ :=
            ihds (fun d' hd' => hdn d' (List.mem_cons_of_mem d hd'))
              (fun d' hd' => hdstack d' (List.mem_cons_of_mem d hd'))
              (visitAux g fuel d st) hinv1' hb1
          refine ⟨hinv2, ?_, ?_, ?_⟩
          · obtain ⟨vext2, hv2eq, hv2not⟩ := hvext2
            refine ⟨vext2 ++ vext1, ?_, ?_⟩
            · rw [hv2eq, hv1eq, List.append_assoc]
            · intro x hx
              rcases List.mem_append.mp hx with hx1 | hx1
              · intro hxs
                exact hv2not x hx1 (by rw [hv1eq]; exact List.mem_append_right _ hxs)
              · exact hv1not x hx1
          · obtain ⟨oext1, ho1eq, ho1not⟩ := hoext1
            obtain ⟨oext2, ho2eq, ho2not⟩ := hoext2
            refine ⟨oext1 ++ oext2, ?_, ?_⟩
            · rw [ho2eq, ho1eq, List.append_assoc]
            · intro x hx
              rcases List.mem_append.mp hx with hx1 | hx1
              · exact ho1not x hx1
              · intro hxs
                exact ho2not x hx1 (by rw [hv1eq]; exact List.mem_append_right _ hxs)
          · intro d' hd'
            rcases List.mem_cons.mp hd' with rfl | hd2
            · obtain ⟨vext2, hv2eq, _⟩ := hvext2
              rw [hv2eq]
              exact List.mem_append_right _ hdvis
            · exact hmem2 d' hd2
      have hds_nodes : ∀ d ∈ g.deps n, d ∈ g.nodes := fun d hd => hc n hn d hd
      have hb1 : g.nodes.length + 1 ≤
          fuel + (⟨n :: s.visited, s.order⟩ : TState).visited.length := by
        show _ ≤ fuel + (n :: s.visited).length
        rw [List.length_cons]
        omega
      obtain ⟨hinv2, hvext2, hoext2, hdsmem⟩ :=
        fold_spec (g.deps n) hds_nodes hstack ⟨n :: s.visited, s.order⟩ hinv1 hb1
      obtain ⟨h2vnd, h2vsub, h2ond, h2osub, h2gap, h2ord⟩ := hinv2
      obtain ⟨vext2, hv2eq, hv2not⟩ := hvext2
      obtain ⟨oext2, ho2eq, ho2not⟩ := hoext2
      rw [hva]
      have hnovis : n ∉ s.order := fun hx => hvis (hosub n hx)
      have hnord : n ∉ ((g.deps n).foldl (fun st d => visitAux g fuel d st)
          ⟨n :: s.visited, s.order⟩).order := by
        rw [ho2eq]
        intro hx
        rcases List.mem_append.mp hx with hx1 | hx1
        · exact hnovis hx1
        · exact ho2not n hx1 (List.mem_cons_self _ _)
      have hnvis2 : n ∈ ((g.deps n).foldl (fun st d => visitAux g fuel d st)
          ⟨n :: s.visited, s.order⟩).visited := by
        rw [hv2eq]
        exact List.mem_append_right _ (List.mem_cons_self _ _)
      have hdeps_ord : ∀ d ∈ g.deps n, d ∈ ((g.deps n).foldl
          (fun st d => visitAux g fuel d st) ⟨n :: s.visited, s.order⟩).order := by
        intro d hd
        rcases h2gap d (hdsmem d hd) with h | h
        · exact h
        · rcases List.mem_cons.mp h with rfl | hS2
          · exact absurd (DepPath.single hd) (hacyc d hn)
          · exact (hS d hS2 (Or.inr (DepPath.single hd))).elim
      refine ⟨⟨?_, ?_, ?_, ?_, ?_, ?_⟩, ?_, ?_, ?_, ?_⟩
      · exact h2vnd
      · exact h2vsub
      · rw [List.nodup_append]
        refine ⟨h2ond, List.nodup_singleton n, ?_⟩
        intro x hx hxn
        rw [List.mem_singleton] at hxn
        exact hnord (hxn ▸ hx)
      · intro x hx
        rcases List.mem_append.mp hx with hx1 | hx1
        · exact h2osub x hx1
        · rw [List.mem_singleton] at hx1
          exact hx1 ▸ hnvis2
      · intro x hx
        rcases h2gap x hx with h | h
        · exact Or.inl (List.mem_append_left _ h)
        · rcases List.mem_cons.mp h with rfl | hS2
          · exact Or.inl (List.mem_append_right _ (List.mem_singleton_self _))
          · exact Or.inr hS2
      · exact DOrd.snoc h2ord hdeps_ord
      · refine ⟨vext2 ++ [n], ?_, ?_⟩
        · rw [hv2eq]
          simp [List.append_assoc]
        · intro x hx
          rcases List.mem_append.mp hx with hx1 | hx1
          · intro hxs
            exact hv2not x hx1 (List.mem_cons_of_mem n hxs)
          · rw [List.mem_singleton] at hx1
            exact hx1 ▸ hvis
      · refine ⟨oext2 ++ [n], ?_, ?_⟩
        · rw [ho2eq]
          simp [List.append_assoc]
        · intro x hx
          rcases List.mem_append.mp hx with hx1 | hx1
          · intro hxs
            exact ho2not x hx1 (List.mem_cons_of_mem n hxs)
          · rw [List.mem_singleton] at hx1
            exact hx1 ▸ hvis
      · exact hnvis2
      · exact List.mem_append_right _ (List.mem_singleton_self n)

theorem topologicalSort_spec (g : Graph) (hc : Closed g)
    (hacyc : ∀ a ∈ g.nodes, ¬DepPath g a a) :
    (topologicalSort g).Nodup ∧
    (∀ x, x ∈ topologicalSort g ↔ x ∈ g.nodes) ∧
    DOrd g (topologicalSort g) := by
  have top_spec : ∀ l : List String, (∀ x ∈ l, x ∈ g.nodes) → ∀ st : TState,
      TInv g [] st →
      TInv g [] (l.foldl
        (fun st n => if n ∈ st.visited then st else visitAux g (g.nodes.length + 1) n st) st) ∧
      (∀ x ∈ l, x ∈ (l.foldl
        (fun st n => if n ∈ st.visited then st else visitAux g (g.nodes.length + 1) n st)
          st).order) ∧
      (∃ oext, (l.foldl
        (fun st n => if n ∈ st.visited then st else visitAux g (g.nodes.length + 1) n st)
          st).order = st.order ++ oext) := by
    intro l
    induction l with
    | nil =>
      intro _ st hinvst
      exact ⟨hinvst, by simp, ⟨[], by simp⟩⟩
    | cons x l ihl =>
      intro hln st hinvst
      rw [List.foldl_cons]
      by_cases hvis : x ∈ st.visited
      · rw [if_pos hvis]
        obtain ⟨hinv2, hmem2, oext2, ho2⟩ :=
          ihl (fun y hy => hln y (List.mem_cons_of_mem x hy)) st hinvst
        refine ⟨hinv2, ?_, ⟨oext2, ho2⟩⟩
        intro y hy
        rcases List.mem_cons.mp hy with rfl | hy2
        · rcases hinvst.2.2.2.2.1 y hvis with h | h
          · rw [ho2]
            exact List.mem_append_left _ h
          · exact absurd h (List.not_mem_nil y)
        · exact hmem2 y hy2
      · rw [if_neg hvis]
        have hb : g.nodes.length + 1 ≤ (g.nodes.length + 1) + st.visited.length := by omega
        obtain ⟨hinv1, _, ⟨oext1, ho1, _⟩, _, hxord⟩ :=
          visitAux_spec g hc hacyc (g.nodes.length + 1) x st []
            (hln x (List.mem_cons_self _ _)) (fun a ha => absurd ha (List.not_mem_nil a))
            hinvst hb
        obtain ⟨hinv2, hmem2, oext2, ho2⟩ :=
          ihl (fun y hy => hln y (List.mem_cons_of_mem x hy))
            (visitAux g (g.nodes.length + 1) x st) hinv1
        refine ⟨hinv2, ?_, ⟨oext1 ++ oext2, ?_⟩⟩
        · intro y hy
          rcases List.mem_cons.mp hy with rfl | hy2
          · rw [ho2]
            exact List.mem_append_left _ hxord
          · exact hmem2 y hy2
        · rw [ho2, ho1, List.append_assoc]
  obtain ⟨⟨_, hvsub, hond, hosub, _, hord⟩, hmem, _⟩ :=
    top_spec g.nodes (fun x hx => hx) ⟨[], []⟩
      ⟨List.nodup_nil, fun x hx => absurd hx (List.not_mem_nil x), List.nodup_nil,
       fun x hx => absurd hx (List.not_mem_nil x),
       fun x hx => absurd hx (List.not_mem_nil x), DOrd.nil⟩
  refine ⟨hond, ?_, hord⟩
  intro x
  constructor
  · intro hx
    exact hvsub x (hosub x hx)
  · intro hx
    exact hmem x hx

theorem DOrd_split (g : Graph) : ∀ l : List String, DOrd g l →
    ∀ (l1 : List String) (x : String) (l2 : List String), l = l1 ++ x :: l2 →
      ∀ d ∈ g.deps x, d ∈ l1 := by
  intro l h
  induction h with
  | nil =>
    intro l1 x l2 heq
    exact absurd heq.symm (List.append_ne_nil_of_right_ne_nil l1 (by simp))
  | snoc hord hdeps ihd =>
    rename_i l' y
    intro l1 x l2 heq
    rcases List.eq_nil_or_concat l2 with rfl | ⟨l2', z, rfl⟩
    · obtain ⟨h1, h2⟩ := List.append_inj' heq rfl
      have hyx : y = x := (List.cons.injEq _ _ _ _ ▸ h2).1
      intro d hd
      rw [← h1]
      exact hdeps d (hyx ▸ hd)
    · rw [List.concat_eq_append] at heq
      rw [show l1 ++ x :: (l2' ++ [z]) = (l1 ++ x :: l2') ++ [z] by simp] at heq
      obtain ⟨h1, _⟩ := List.append_inj' heq rfl
      exact ihd l1 x l2' h1

/-- Claim C7: on a closed acyclic graph, the topological order lists the
graph's modules exactly once each, and every module appears only after
all of its dependencies: whenever the order splits as
`l1 ++ x :: l2`, all dependencies of `x` lie in `l1`. -/
theorem claim7_topological_order (g : Graph) (hc : Closed g)
    (hacyc : ∀ a ∈ g.nodes, ¬DepPath g a a) :
    (topologicalSort g).Nodup ∧
    (∀ x, x ∈ topologicalSort g ↔ x ∈ g.nodes) ∧
    (∀ (l1 : List String) (x : String) (l2 : List String),
      topologicalSort g = l1 ++ x :: l2 → ∀ d ∈ g.deps x, d ∈ l1) := by
  obtain ⟨h1, h2, h3⟩ := topologicalSort_spec g hc hacyc
  exact ⟨h1, h2, fun l1 x l2 heq => DOrd_split g _ h3 l1 x l2 heq⟩

/-- Witness for C7 on the three-module chain, acyclicity certified by a
clean detector run. -/
theorem claim7_topological_order_witness :
    (topologicalSort gChain).Nodup ∧
    (∀ x, x ∈ topologicalSort gChain ↔ x ∈ gChain.nodes) := by
  have h := claim7_topological_order gChain (by decide)
    (noCycle_of_detect_none gChain (by decide) (by decide))
  exact ⟨h.1, h.2.1⟩

end VMgr
